import Mathlib

/-!
Verification of the offline static-analysis core of a Godot MCP server:
the GDScript parser (gdscript_parser.py), the scene parser (tscn_parser.py)
and the project analyzer (project_analyzer.py).  Python strings are embedded
as lists of characters; every regular expression of the source is embedded as
an executable matcher whose backtracking has been resolved analytically (the
comments at each matcher record the correspondence).  Python's re module is
used by the source with MULTILINE on the anchored patterns, no DOTALL, so a
dot never crosses a newline while a whitespace class does.
-/

namespace GdotSpec

/-- Characters of a Python str, modelled as a list of Lean chars. -/
abbrev Str := List Char

def str (s : String) : Str := s.data

/-- Python regex \s on ASCII input: space, tab, newline, return, vertical tab,
form feed. -/
def isPySpace (c : Char) : Bool :=
  c = ' ' || c = '\t' || c = '\n' || c = '\r' || c = '\x0b' || c = '\x0c'

/-- Python regex \w on ASCII input: letters, digits, underscore. -/
def isWordChar (c : Char) : Bool := c.isAlphanum || c = '_'

/-- With re.MULTILINE a caret matches at the start of the text or right after a
newline; rp is the reversed prefix of the text before the current position. -/
def atLS (rp : Str) : Bool := rp = [] || rp.head? = some '\n'

/-- Literal matcher: returns the rest of the text after the literal. -/
def pLit : Str → Str → Option Str
  | [], s => some s
  | _, [] => none
  | l :: lt, c :: ct => if c = l then pLit lt ct else none

/-- One-or-more greedy run of characters satisfying p (the regex p+ for a
character class p): returns the consumed run and the rest. -/
def pRun1 (p : Char → Bool) (s : Str) : Option (Str × Str) :=
  let a := s.takeWhile p
  if a.isEmpty then none else some (a, s.dropWhile p)

/-- \s+ -/
def pWs1 : Str → Option (Str × Str) := pRun1 isPySpace

/-- \w+ -/
def pWord1 : Str → Option (Str × Str) := pRun1 isWordChar

/-- \s* as a span (consumed run, rest). -/
def spanWs (s : Str) : Str × Str := (s.takeWhile isPySpace, s.dropWhile isPySpace)

/-- The lazy (.*?) right before a closing parenthesis: the shortest run of
non-newline characters up to the first closing parenthesis on the line; none
when no closing parenthesis occurs before the end of the line. -/
def lazyToParen : Str → Option (Str × Str)
  | [] => none
  | c :: t =>
    if c = ')' then some ([], t)
    else if c = '\n' then none
    else
      match lazyToParen t with
      | some (a, r) => some (c :: a, r)
      | none => none

/-- Number of newline characters in a text; a 1-based line number of an offset
n in the source is the newline count of the first n characters plus one. -/
def nlCount (l : Str) : Nat := (l.filter (· = '\n')).length

/-- One match of re.finditer: start offset, the 1-based line of the start
offset, the matched text, and the captured groups g. -/
structure MRec (G : Type) where
  pos : Nat
  line : Nat
  matched : Str
  g : G
deriving DecidableEq, Repr

/-- re.finditer: scan left to right, at each offset attempt the matcher f
(f receives the reversed prefix rp, for the caret test and the lookbehind, and
the suffix); after a match of length L resume at offset + L (k counts the
remaining offsets to skip).  A matcher returns (groups, matched text, rest). -/
def scanAux {G : Type} (f : Str → Str → Option (G × Str × Str)) :
    Str → Str → Nat → List (MRec G)
  | _, [], _ => []
  | rp, c :: t, k + 1 => scanAux f (c :: rp) t k
  | rp, c :: t, 0 =>
    match f rp (c :: t) with
    | some (g, mt, _) =>
      ⟨rp.length, nlCount rp + 1, mt, g⟩ :: scanAux f (c :: rp) t (mt.length - 1)
    | none => scanAux f (c :: rp) t 0

def scanAll {G : Type} (f : Str → Str → Option (G × Str × Str)) (content : Str) :
    List (MRec G) :=
  scanAux f [] content 0

/-! ### GDScript matchers (gdscript_parser.py regex constants) -/

/-- Groups of SIGNAL_PATTERN ^signal\s+(\w+)(?:\((.*?)\))?  -/
structure SigG where
  name : Str
  params : Option Str
deriving DecidableEq, Repr

/-- SIGNAL_PATTERN.  The whitespace run may cross newlines; the optional
parenthesis group requires the opening parenthesis directly after the name and
is skipped when absent or unclosed on its line. -/
def matchSignal (rp s : Str) : Option (SigG × Str × Str) :=
  if atLS rp then
    match pLit (str "signal") s with
    | none => none
    | some s1 =>
      match pWs1 s1 with
      | none => none
      | some (w, s2) =>
        match pWord1 s2 with
        | none => none
        | some (nm, s3) =>
          match s3 with
          | '(' :: s4 =>
            match lazyToParen s4 with
            | some (inner, s5) =>
              some (⟨nm, some inner⟩,
                    str "signal" ++ w ++ nm ++ '(' :: (inner ++ [')']), s5)
            | none => some (⟨nm, none⟩, str "signal" ++ w ++ nm, s3)
          | _ => some (⟨nm, none⟩, str "signal" ++ w ++ nm, s3)
  else none

/-- Groups of VAR_PATTERN and of the var tail of EXPORT_PATTERN. -/
structure VG where
  vname : Str
  ty : Option Str
  dflt : Option Str
  nameOff : Nat
deriving DecidableEq, Repr

/-- The optional type annotation (?:\s*:\s*(\w+))? — committed only when the
colon and a word both appear, otherwise nothing is consumed. -/
def tryType (s : Str) : Str × Option Str × Str :=
  let (a, b) := spanWs s
  match b with
  | ':' :: b2 =>
    let (a2, b3) := spanWs b2
    match pWord1 b3 with
    | some (t, b4) => (a ++ ':' :: a2 ++ t, some t, b4)
    | none => ([], none, s)
  | _ => ([], none, s)

/-- The pattern tail (?:\s*#|$): the first alternative consumes whitespace and
a hash; the second is the zero-width MULTILINE end-of-line. -/
def tailMatch (u : Str) : Option (Str × Str) :=
  let (a, b) := spanWs u
  match b with
  | '#' :: b2 => some (a ++ ['#'], b2)
  | _ => if u = [] || u.head? = some '\n' then some ([], u) else none

/-- Splits a whitespace run into (front, x, nlrun) where x is its last
non-newline character and nlrun the trailing newlines; none when every
character is a newline.  Used for the greedy-\s* backtracking of the default
group at end of input. -/
def lastNonNl : Str → Option (Str × Char × Str)
  | [] => none
  | ch :: t =>
    match lastNonNl t with
    | some (i, x, r) => some (ch :: i, x, r)
    | none => if ch = '\n' then none else some ([], ch, t)

/-- The lazy (.+?) of the default group, already holding acc (reversed, at
least one character): before consuming each further character the tail
(?:\s*#|$) is tried; a newline is never consumed by the dot.  At the end of
input the zero-width end matches, which the empty case returns directly. -/
def lazyLoop (acc : Str) : Str → Option (Str × Str × Str)
  | [] => some (acc.reverse, [], [])
  | ch :: u2 =>
    match tailMatch (ch :: u2) with
    | some (tc, rest) => some (acc.reverse, tc, rest)
    | none => if ch = '\n' then none else lazyLoop (ch :: acc) u2

/-- The suffix (?:\s*=\s*(.+?))?(?:\s*#|$) shared by EXPORT_PATTERN and
VAR_PATTERN.  The optional default group is tried first, with the greedy \s*
after the equals sign backtracking (only at end of input) until the lazy dot
can start on a non-newline character; when the group cannot match, the bare
tail must match instead, otherwise the whole pattern fails here. -/
def tryDefaultTail (s : Str) : Option (Str × Option Str × Str) :=
  let taken : Option (Str × Option Str × Str) :=
    let (a, b) := spanWs s
    match b with
    | '=' :: b2 =>
      let (c, d) := spanWs b2
      match d with
      | ch :: d2 =>
        match lazyLoop [ch] d2 with
        | some (df, tc, rest) => some (a ++ '=' :: (c ++ df ++ tc), some df, rest)
        | none => none
      | [] =>
        match lastNonNl c with
        | some (i, x, r) => some (a ++ '=' :: (i ++ [x]), some [x], r)
        | none => none
    | _ => none
  match taken with
  | some v => some v
  | none =>
    match tailMatch s with
    | some (tc, rest) => some (tc, none, rest)
    | none => none

/-- var\s+(\w+)(?:\s*:\s*(\w+))?(?:\s*=\s*(.+?))?(?:\s*#|$) — the body shared
by VAR_PATTERN and EXPORT_PATTERN; nameOff is the offset of the declared name
inside the matched text. -/
def matchVarCore (s : Str) : Option (VG × Str × Str) :=
  match pLit (str "var") s with
  | none => none
  | some s1 =>
    match pWs1 s1 with
    | none => none
    | some (w1, s2) =>
      match pWord1 s2 with
      | none => none
      | some (nm, s3) =>
        let (tp, ty, s4) := tryType s3
        match tryDefaultTail s4 with
        | none => none
        | some (tl, df, s5) =>
          some (⟨nm, ty, df, 3 + w1.length⟩, str "var" ++ w1 ++ nm ++ tp ++ tl, s5)

/-- VAR_PATTERN ^var\s+(\w+)(?:\s*:\s*(\w+))?(?:\s*=\s*(.+?))?(?:\s*#|$) -/
def matchVar (rp s : Str) : Option (VG × Str × Str) :=
  if atLS rp then matchVarCore s else none

/-- Groups of EXPORT_PATTERN. -/
structure EG where
  hint : Option Str
  hintArgs : Option Str
  ename : Str
  ty : Option Str
  dflt : Option Str
  nameOff : Nat
deriving DecidableEq, Repr

/-- The continuation \s*var... of EXPORT_PATTERN after its (already matched)
head; headTxt is the head's text. -/
def contAfterHead (hint hargs : Option Str) (headTxt : Str) (s : Str) :
    Option (EG × Str × Str) :=
  let (wv, s1) := spanWs s
  match matchVarCore s1 with
  | none => none
  | some (vg, mt, rest) =>
    some (⟨hint, hargs, vg.vname, vg.ty, vg.dflt,
           headTxt.length + wv.length + vg.nameOff⟩,
          headTxt ++ wv ++ mt, rest)

/-- The lazy (.*?) of the parenthesised hint-argument group under the engine's
backtracking: the dot never crosses a newline, each closing parenthesis of the
line is tried as the group's end in order (shortest capture first), and when
the continuation fails there the parenthesis is absorbed by the dot and the
scan moves to the next one; acc holds the capture so far, reversed. -/
def hintArgsLoop (hn acc : Str) : Str → Option (EG × Str × Str)
  | [] => none
  | c :: t =>
    if c = ')' then
      match contAfterHead (some hn) (some acc.reverse)
          (str "@export_" ++ hn ++ '(' :: (acc.reverse ++ [')'])) t with
      | some v => some v
      | none => hintArgsLoop hn (c :: acc) t
    else if c = '\n' then none
    else hintArgsLoop hn (c :: acc) t

/-- One hint-name candidate: with an opening parenthesis right after the name
every argument capture is tried first, then the optional parenthesis group is
skipped (consuming nothing, the continuation restarting at the parenthesis);
without one the group is skipped directly. -/
def tryHintOne (hn rest2 : Str) : Option (EG × Str × Str) :=
  match rest2 with
  | '(' :: s4 =>
    match hintArgsLoop hn [] s4 with
    | some v => some v
    | none => contAfterHead (some hn) none (str "@export_" ++ hn) ('(' :: s4)
  | _ => contAfterHead (some hn) none (str "@export_" ++ hn) rest2

/-- Greedy backtracking over the hint-name length (the \w+ of the hint tries
the longest first; a shorter hint can succeed when the remaining word
characters begin the literal var; the parenthesis group only arises at the
full length, a shorter cut leaving a word character next).  At zero the hint
group is skipped entirely. -/
def tryHintLens (w : Str) (s2 : Str) : Nat → Option (EG × Str × Str)
  | 0 => contAfterHead none none (str "@export") ('_' :: (w ++ s2))
  | l + 1 =>
    match tryHintOne (w.take (l + 1)) (w.drop (l + 1) ++ s2) with
    | some v => some v
    | none => tryHintLens w s2 l

/-- EXPORT_PATTERN
^@export(?:_(\w+)(?:\((.*?)\))?)?\s*var\s+(\w+)(?:\s*:\s*(\w+))?(?:\s*=\s*(.+?))?(?:\s*#|$)
When the underscore is present but no word follows, the hint group is skipped
and the continuation starts at the underscore (it then necessarily fails at
the literal var). -/
def matchExport (rp s : Str) : Option (EG × Str × Str) :=
  if atLS rp then
    match pLit (str "@export") s with
    | none => none
    | some s1 =>
      match s1 with
      | '_' :: s1' =>
        match pWord1 s1' with
        | some (w, s2) => tryHintLens w s2 w.length
        | none => contAfterHead none none (str "@export") s1
      | _ => contAfterHead none none (str "@export") s1
  else none

/-- Groups of FUNC_PATTERN. -/
structure FG where
  isStatic : Bool
  fname : Str
  params : Str
  ret : Option Str
deriving DecidableEq, Repr

/-- The optional return annotation (?:\s*->\s*(\w+))? — committed only when
the arrow and a word both appear. -/
def tryRet (u : Str) : Str × Option Str × Str :=
  let (a, b) := spanWs u
  match b with
  | '-' :: '>' :: b2 =>
    let (a2, b3) := spanWs b2
    match pWord1 b3 with
    | some (t, b4) => (a ++ '-' :: '>' :: (a2 ++ t), some t, b4)
    | none => ([], none, u)
  | _ => ([], none, u)

/-- func\s+(\w+)\s*\((.*?)\)(?:\s*->\s*(\w+))? — the parenthesis is required:
without a closing parenthesis on the line the whole pattern fails. -/
def matchFuncCore (st : Bool) (headTxt : Str) (s : Str) : Option (FG × Str × Str) :=
  match pLit (str "func") s with
  | none => none
  | some s1 =>
    match pWs1 s1 with
    | none => none
    | some (w1, s2) =>
      match pWord1 s2 with
      | none => none
      | some (nm, s3) =>
        let (a, b) := spanWs s3
        match b with
        | '(' :: b2 =>
          match lazyToParen b2 with
          | some (ps, b3) =>
            let (rt, ret, b4) := tryRet b3
            some (⟨st, nm, ps, ret⟩,
                  headTxt ++ str "func" ++ w1 ++ nm ++ a ++ '(' :: (ps ++ [')']) ++ rt,
                  b4)
          | none => none
        | _ => none

/-- FUNC_PATTERN ^(static\s+)?func\s+(\w+)\s*\((.*?)\)(?:\s*->\s*(\w+))?
When static is present without following whitespace, or the rest fails, the
group is skipped; the literal func then cannot match at the letter s, so the
fallback is the plain attempt on the original text. -/
def matchFunc (rp s : Str) : Option (FG × Str × Str) :=
  if atLS rp then
    match pLit (str "static") s with
    | some s1 =>
      match pWs1 s1 with
      | some (w, s2) => matchFuncCore true (str "static" ++ w) s2
      | none => matchFuncCore false [] s
    | none => matchFuncCore false [] s
  else none

/-- Single captured word (CLASS_NAME_PATTERN, EXTENDS_PATTERN). -/
structure CG where
  cname : Str
deriving DecidableEq, Repr

/-- CLASS_NAME_PATTERN ^class_name\s+(\w+) -/
def matchClassName (rp s : Str) : Option (CG × Str × Str) :=
  if atLS rp then
    match pLit (str "class_name") s with
    | none => none
    | some s1 =>
      match pWs1 s1 with
      | none => none
      | some (w, s2) =>
        match pWord1 s2 with
        | none => none
        | some (nm, s3) => some (⟨nm⟩, str "class_name" ++ w ++ nm, s3)
  else none

/-- EXTENDS_PATTERN ^extends\s+([^\s#]+) -/
def matchGDExtends (rp s : Str) : Option (CG × Str × Str) :=
  if atLS rp then
    match pLit (str "extends") s with
    | none => none
    | some s1 =>
      match pWs1 s1 with
      | none => none
      | some (w, s2) =>
        match pRun1 (fun c => !isPySpace c && c ≠ '#') s2 with
        | none => none
        | some (nm, s3) => some (⟨nm⟩, str "extends" ++ w ++ nm, s3)
  else none

/-- TOOL_PATTERN ^@tool -/
def matchTool (rp s : Str) : Option (Unit × Str × Str) :=
  if atLS rp then
    match pLit (str "@tool") s with
    | none => none
    | some s1 => some ((), str "@tool", s1)
  else none

/-- Captured path of PRELOAD_PATTERN / LOAD_PATTERN. -/
structure LG where
  path : Str
deriving DecidableEq, Repr

def isQuote (c : Char) : Bool := c = '"' || c = '\''

/-- The closing ["\']\s*\) tried at each lazy position: either quote may close
either opening quote. -/
def closeTail (u : Str) : Option (Str × Str) :=
  match u with
  | q :: u2 =>
    if isQuote q then
      let (a, b) := spanWs u2
      match b with
      | ')' :: b2 => some (q :: (a ++ [')']), b2)
      | _ => none
    else none
  | [] => none

/-- The lazy (.+?) of the load path: before each further character the closing
["\']\s*\) is tried; a quote not followed by whitespace and a closing
parenthesis is absorbed by the dot. -/
def lazyQC (acc : Str) : Str → Option (Str × Str × Str)
  | [] => none
  | ch :: u2 =>
    match closeTail (ch :: u2) with
    | some (tc, rest) => some (acc.reverse, tc, rest)
    | none => if ch = '\n' then none else lazyQC (ch :: acc) u2

/-- \s*\(\s*["\'](.+?)["\']\s*\) after the load keyword. -/
def callCore (headTxt : Str) (s : Str) : Option (LG × Str × Str) :=
  let (a1, b1) := spanWs s
  match b1 with
  | '(' :: b2 =>
    let (a2, b3) := spanWs b2
    match b3 with
    | q :: b4 =>
      if isQuote q then
        match b4 with
        | ch :: b5 =>
          if ch = '\n' then none
          else
            match lazyQC [ch] b5 with
            | some (p, tc, rest) =>
              some (⟨p⟩, headTxt ++ a1 ++ '(' :: (a2 ++ q :: (p ++ tc)), rest)
            | none => none
        | [] => none
      else none
    | [] => none
  | _ => none

/-- PRELOAD_PATTERN preload\s*\(\s*["\'](.+?)["\']\s*\) — unanchored. -/
def matchPreload (_rp s : Str) : Option (LG × Str × Str) :=
  match pLit (str "preload") s with
  | none => none
  | some s1 => callCore (str "preload") s1

/-- LOAD_PATTERN (?<!pre)load\s*\(\s*["\'](.+?)["\']\s*\) — the negative
lookbehind inspects the three characters before the match offset (a reversed
prefix shorter than three cannot spell pre, so the lookbehind succeeds). -/
def matchLoad (rp s : Str) : Option (LG × Str × Str) :=
  if rp.take 3 = ['e', 'r', 'p'] then none
  else
    match pLit (str "load") s with
    | none => none
    | some s1 => callCore (str "load") s1

/-! ### GDScript parse result (parse_content of GDScriptParser) -/

structure GDSignal where
  name : Str
  parameters : List Str
  line : Nat
deriving DecidableEq, Repr

structure GDFunction where
  name : Str
  parameters : List Str
  return_type : Option Str
  is_static : Bool
  line : Nat
deriving DecidableEq, Repr

structure GDExport where
  name : Str
  type : Str
  default : Option Str
  hint : Option Str
  line : Nat
deriving DecidableEq, Repr

structure GDVariable where
  name : Str
  type : Option Str
  default : Option Str
  line : Nat
deriving DecidableEq, Repr

structure GDClass where
  name : Option Str
  «extends» : Option Str
  path : Str
  signals : List GDSignal
  functions : List GDFunction
  exports : List GDExport
  «variables» : List GDVariable
  preloads : List Str
  is_tool : Bool
deriving DecidableEq, Repr

/-- str.split on a comma. -/
def splitComma : Str → List Str
  | [] => [[]]
  | c :: t =>
    if c = ',' then [] :: splitComma t
    else
      match splitComma t with
      | h :: r => (c :: h) :: r
      | [] => [[c]]

/-- str.strip() on ASCII input. -/
def stripWs (s : Str) : Str :=
  ((s.dropWhile isPySpace).reverse.dropWhile isPySpace).reverse

/-- _parse_params: an empty or whitespace-only string yields the empty list,
otherwise the string is split on commas, each piece stripped, and pieces that
strip to nothing are dropped. -/
def parseParams (ps : Str) : List Str :=
  if stripWs ps = [] then []
  else ((splitComma ps).map stripWs).filter (· ≠ [])

/-- The source guards the signal parameter group with Python truthiness: a
missing or empty group yields the empty list without calling _parse_params. -/
def sigParams : Option Str → List Str
  | none => []
  | some ps => if ps = [] then [] else parseParams ps

/-- No signal match that starts inside the given prefix runs past its end:
the scan of pre ++ tail attempts the signal matcher at every offset of pre
with the rest of the text to its right, and any match found there stops
within pre.  (A bare signal keyword ending the prefix violates this: its
whitespace run crosses the newline and swallows the start of tail.) -/
def noSwallow (pre tail : Str) : Bool :=
  (List.range pre.length).all fun j =>
    match matchSignal (pre.take j).reverse (pre.drop j ++ tail) with
    | some (_, mt, _) => decide (j + mt.length ≤ pre.length)
    | none => true

/-- content[line_start : match.start()] for the dead @export guard of the
variable loop (the guard is kept for fidelity; a ^-anchored match always
starts at its line start, leaving this text empty). -/
def lineContentBefore (content : Str) (pos : Nat) : Str :=
  ((content.take pos).reverse.takeWhile (· ≠ '\n')).reverse

/-- Substring test, Python's in operator. -/
def containsSub (pat : Str) : Str → Bool
  | [] => pat.isEmpty
  | c :: t => (pLit pat (c :: t)).isSome || containsSub pat t

/-- group(4) or "Variant" of the export loop: the captured type is a nonempty
word whenever present, so Python's or falls through exactly on the missing
group. -/
def exportType (ty : Option Str) : Str := ty.getD (str "Variant")

/-- GDScriptParser.parse_content — a pure function of the content and path;
the parser object holds no mutable instance state (its pattern constants are
class-level and immutable). -/
def gdParse (content : Str) (path : Str) : GDClass :=
  { name := ((scanAll matchClassName content).head?).map (·.g.cname)
    «extends» := ((scanAll matchGDExtends content).head?).map (·.g.cname)
    path := path
    is_tool := !(scanAll matchTool content).isEmpty
    signals := (scanAll matchSignal content).map fun m =>
      ⟨m.g.name, sigParams m.g.params, m.line⟩
    functions := (scanAll matchFunc content).map fun m =>
      ⟨m.g.fname, parseParams m.g.params, m.g.ret, m.g.isStatic, m.line⟩
    exports := (scanAll matchExport content).map fun m =>
      ⟨m.g.ename, exportType m.g.ty, m.g.dflt, m.g.hint, m.line⟩
    «variables» := ((scanAll matchVar content).filter fun m =>
        !containsSub (str "@export") (lineContentBefore content m.pos)).map fun m =>
      ⟨m.g.vname, m.g.ty, m.g.dflt, m.line⟩
    preloads := ((scanAll matchPreload content).map (·.g.path)) ++
      ((scanAll matchLoad content).map (·.g.path)) }

/-! ### TSCN scene parser (tscn_parser.py) -/

structure TscnResource where
  id : Str
  type : Str
  path : Option Str
  properties : List (Str × Str)
deriving DecidableEq, Repr

structure TscnNode where
  name : Str
  type : Option Str
  parent : Option Str
  «instance» : Option Str
  properties : List (Str × Str)
  groups : List Str
deriving DecidableEq, Repr

structure TscnConnection where
  signal : Str
  from_node : Str
  to_node : Str
  method : Str
  flags : Nat
deriving DecidableEq, Repr

/-- TscnScene.  The Python object graph aliases one TscnNode object from the
flat node list, the local node_map and root_node, and mutates its children in
place; the embedding replaces the aliasing by indices into nodes: rootIdx is
root_node, childEdges the children lists (edge parent index, child index, in
append order) and nodeMap the parser's local path lookup. -/
structure TscnScene where
  path : Str
  format_version : Nat
  ext_resources : List TscnResource
  sub_resources : List TscnResource
  nodes : List TscnNode
  connections : List TscnConnection
  rootIdx : Option Nat
  childEdges : List (Nat × Nat)
  nodeMap : List (Str × Nat)
deriving DecidableEq, Repr

/-- Key-then-overwrite insertion of a Python dict. -/
def upsert {β : Type} (d : List (Str × β)) (k : Str) (v : β) : List (Str × β) :=
  if d.any (·.1 = k) then d.map (fun p => if p.1 = k then (k, v) else p)
  else d ++ [(k, v)]

def lookupIdx (m : List (Str × Nat)) (k : Str) : Option Nat :=
  (m.find? (·.1 = k)).map (·.2)

/-- \s+key="([^"]+)" — the attribute shape shared by the stanza headers. -/
def pAttr (key : Str) (s : Str) : Option (Str × Str) :=
  match pWs1 s with
  | none => none
  | some (_, s1) =>
    match pLit (key ++ str "=\"") s1 with
    | none => none
    | some s2 =>
      match pRun1 (· ≠ '"') s2 with
      | some (v, '"' :: s3) => some (v, s3)
      | _ => none

def digitsToNat (ds : Str) : Nat := ds.foldl (fun n c => n * 10 + (c.toNat - 48)) 0

/-- Groups of EXT_RESOURCE_PATTERN. -/
structure ExtG where
  id : Str
  type : Str
  path : Str
  uid : Option Str
deriving DecidableEq, Repr

/-- EXT_RESOURCE_PATTERN
\[ext_resource\s+type="([^"]+)"\s+(?:uid="([^"]+)"\s+)?path="([^"]+)"\s+id="([^"]+)"\]
unanchored; the optional uid group carries its own trailing whitespace.  When
uid matches but the rest fails, the skipped-group retry would put the literal
path at the letter u, failing as well, so the greedy take is deterministic. -/
def matchExtRes (_rp s : Str) : Option (ExtG × Str × Str) :=
  match pLit (str "[ext_resource") s with
  | none => none
  | some s1 =>
    match pAttr (str "type") s1 with
    | none => none
    | some (ty, s2) =>
      match pWs1 s2 with
      | none => none
      | some (_, s3) =>
        let uidTry : Option (Str × Str) :=
          match pLit (str "uid=\"") s3 with
          | none => none
          | some s4 =>
            match pRun1 (· ≠ '"') s4 with
            | some (u, '"' :: s5) =>
              match pWs1 s5 with
              | some (_, s6) => some (u, s6)
              | none => none
            | _ => none
        let (uid, s7) :=
          match uidTry with
          | some (u, s6) => (some u, s6)
          | none => (none, s3)
        match pLit (str "path=\"") s7 with
        | none => none
        | some s8 =>
          match pRun1 (· ≠ '"') s8 with
          | some (pa, '"' :: s9) =>
            match pAttr (str "id") s9 with
            | none => none
            | some (i, s10) =>
              match s10 with
              | ']' :: s11 =>
                some (⟨i, ty, pa, uid⟩, s.take (s.length - s11.length), s11)
              | _ => none
          | _ => none

/-- Groups of SUB_RESOURCE_PATTERN \[sub_resource\s+type="([^"]+)"\s+id="([^"]+)"\]
(anchored at the section start by .match). -/
structure SubG where
  id : Str
  type : Str
deriving DecidableEq, Repr

def subResMatch (s : Str) : Option SubG :=
  match pLit (str "[sub_resource") s with
  | none => none
  | some s1 =>
    match pAttr (str "type") s1 with
    | none => none
    | some (ty, s2) =>
      match pAttr (str "id") s2 with
      | none => none
      | some (i, s3) =>
        match s3 with
        | ']' :: _ => some ⟨i, ty⟩
        | _ => none

/-- Groups of NODE_PATTERN. -/
structure NodeG where
  name : Str
  type : Option Str
  parent : Option Str
  inst : Option Str
  groups : Option Str
deriving DecidableEq, Repr

/-- The optional attribute (?:\s+key="([^"]+)")?: committed when it matches in
full, otherwise nothing is consumed (a committed attribute that dooms the rest
cannot be saved by skipping it, since the following literal never starts with
the skipped attribute's first character). -/
def optAttr (key : Str) (s : Str) : Option Str × Str :=
  match pAttr key s with
  | some (v, r) => (some v, r)
  | none => (none, s)

/-- (?:\s+instance=ExtResource\(\s*"([^"]+)"\s*\))? -/
def optInstanceRef (s : Str) : Option Str × Str :=
  let attempt : Option (Str × Str) :=
    match pWs1 s with
    | none => none
    | some (_, s1) =>
      match pLit (str "instance=ExtResource(") s1 with
      | none => none
      | some s2 =>
        match (spanWs s2).2 with
        | '"' :: s4 =>
          match pRun1 (· ≠ '"') s4 with
          | some (v, '"' :: s5) =>
            match (spanWs s5).2 with
            | ')' :: s7 => some (v, s7)
            | _ => none
          | _ => none
        | _ => none
  match attempt with
  | some (v, r) => (some v, r)
  | none => (none, s)

/-- (?:\s+groups=\[([^\]]+)\])? -/
def optGroupsAttr (s : Str) : Option Str × Str :=
  let attempt : Option (Str × Str) :=
    match pWs1 s with
    | none => none
    | some (_, s1) =>
      match pLit (str "groups=[") s1 with
      | none => none
      | some s2 =>
        match pRun1 (· ≠ ']') s2 with
        | some (v, ']' :: s3) => some (v, s3)
        | _ => none
  match attempt with
  | some (v, r) => (some v, r)
  | none => (none, s)

/-- NODE_PATTERN
\[node\s+name="([^"]+)"(?:\s+type="([^"]+)")?(?:\s+parent="([^"]+)")?(?:\s+instance=ExtResource\(\s*"([^"]+)"\s*\))?(?:\s+groups=\[([^\]]+)\])?\]
anchored at the section start by .match. -/
def nodeHeaderMatch (s : Str) : Option NodeG :=
  match pLit (str "[node") s with
  | none => none
  | some s1 =>
    match pAttr (str "name") s1 with
    | none => none
    | some (nm, s2) =>
      let (ty, s3) := optAttr (str "type") s2
      let (pa, s4) := optAttr (str "parent") s3
      let (inst, s5) := optInstanceRef s4
      let (gr, s6) := optGroupsAttr s5
      match s6 with
      | ']' :: _ => some ⟨nm, ty, pa, inst, gr⟩
      | _ => none

/-- Groups of CONNECTION_PATTERN. -/
structure ConnG where
  signal : Str
  from_node : Str
  to_node : Str
  method : Str
  flags : Nat
deriving DecidableEq, Repr

/-- CONNECTION_PATTERN
\[connection\s+signal="([^"]+)"\s+from="([^"]+)"\s+to="([^"]+)"\s+method="([^"]+)"(?:\s+flags=(\d+))?\]
anchored at the section start by .match; a missing flags group defaults to
zero at the construction site. -/
def connMatch (s : Str) : Option ConnG :=
  match pLit (str "[connection") s with
  | none => none
  | some s1 =>
    match pAttr (str "signal") s1 with
    | none => none
    | some (sg, s2) =>
      match pAttr (str "from") s2 with
      | none => none
      | some (fr, s3) =>
        match pAttr (str "to") s3 with
        | none => none
        | some (toN, s4) =>
          match pAttr (str "method") s4 with
          | none => none
          | some (me, s5) =>
            let (fl, s6) :=
              let attempt : Option (Str × Str) :=
                match pWs1 s5 with
                | none => none
                | some (_, t1) =>
                  match pLit (str "flags=") t1 with
                  | none => none
                  | some t2 =>
                    match pRun1 Char.isDigit t2 with
                    | some (ds, t3) => some (ds, t3)
                    | none => none
              match attempt with
              | some (ds, r) => (digitsToNat ds, r)
              | none => (0, s5)
            match s6 with
            | ']' :: _ => some ⟨sg, fr, toN, me, fl⟩
            | _ => none

/-- The lazy .*?format=(\d+).*?\] after the [gd_scene literal: the outer lazy
dot (which cannot cross a newline) stops at the first format= that is followed
by digits and, later on the same line, a closing bracket; otherwise the scan
moves one character on. -/
def findCloseBracket : Str → Bool
  | [] => false
  | c :: t => if c = ']' then true else if c = '\n' then false else findCloseBracket t

def headerTail : Str → Option Nat
  | [] => none
  | c :: t =>
    (match pLit (str "format=") (c :: t) with
     | some s1 =>
       match pRun1 Char.isDigit s1 with
       | some (ds, s2) => if findCloseBracket s2 then some (digitsToNat ds) else none
       | none => none
     | none => none).orElse fun _ =>
      if c = '\n' then none else headerTail t

/-- HEADER_PATTERN \[gd_scene.*?format=(\d+).*?\] via re.search: the leftmost
start offset wins. -/
def headerSearch : Str → Option Nat
  | [] => none
  | c :: t =>
    match pLit (str "[gd_scene") (c :: t) with
    | some s1 =>
      match headerTail s1 with
      | some v => some v
      | none => headerSearch t
    | none => headerSearch t

/-- re.split(r'\n(?=\[)', content): cut at each newline directly followed by
an opening bracket; the newline is consumed, the bracket retained. -/
def splitSections : Str → List Str
  | [] => [[]]
  | c :: t =>
    let r := splitSections t
    if c = '\n' && t.head? = some '[' then [] :: r
    else
      match r with
      | h :: rt => (c :: h) :: rt
      | [] => [[c]]

/-- str.split('\n'). -/
def splitNl : Str → List Str
  | [] => [[]]
  | c :: t =>
    if c = '\n' then [] :: splitNl t
    else
      match splitNl t with
      | h :: rt => (c :: h) :: rt
      | [] => [[c]]

/-- PROPERTY_PATTERN ^(\w+)\s*=\s*(.+)$ matched against one stripped line.
The greedy value takes the whole rest of the line; when the rest is pure
whitespace the greedy \s* backtracks one character (unreachable from
parse_content, which strips each line first). -/
def propLineMatch (l : Str) : Option (Str × Str) :=
  match pWord1 l with
  | none => none
  | some (k, l1) =>
    match (spanWs l1).2 with
    | '=' :: l3 =>
      let (w, l4) := spanWs l3
      match l4 with
      | [] =>
        (match lastNonNl w with
         | some (_, x, r) => some (k, x :: r)
         | none => none)
      | _ => some (k, l4)
    | _ => none

def joinNl : List Str → Str
  | [] => []
  | [x] => x
  | x :: r => x ++ '\n' :: joinNl r

/-- _parse_properties: property lines start a key, non-matching lines continue
the previous value (joined with a newline), blank lines are skipped, the last
pending property is flushed at the end. -/
def parsePropsGo (props : List (Str × Str)) (cur : Option (Str × List Str)) :
    List Str → List (Str × Str)
  | [] =>
    match cur with
    | some (k, vs) => upsert props k (joinNl vs.reverse)
    | none => props
  | l :: ls =>
    let l2 := stripWs l
    if l2 = [] then parsePropsGo props cur ls
    else
      match propLineMatch l2 with
      | some (k, v) =>
        match cur with
        | some (k0, vs) =>
          parsePropsGo (upsert props k0 (joinNl vs.reverse)) (some (k, [v])) ls
        | none => parsePropsGo props (some (k, [v])) ls
      | none =>
        match cur with
        | some (k0, vs) => parsePropsGo props (some (k0, l2 :: vs)) ls
        | none => parsePropsGo props none ls

def parseProps (lines : List Str) : List (Str × Str) := parsePropsGo [] none lines

/-- str.strip('"') after str.strip() of each comma-separated group entry. -/
def stripQuoteEnds (s : Str) : Str :=
  ((s.dropWhile (· = '"')).reverse.dropWhile (· = '"')).reverse

def parseGroups (gs : Str) : List Str :=
  (splitComma gs).map fun g => stripQuoteEnds (stripWs g)

/-- parent == "." yields the bare name, otherwise parent/name. -/
def mkNodePath (parent nm : Str) : Str :=
  if parent = str "." then nm else parent ++ '/' :: nm

/-- The TscnNode built for one node stanza. -/
def mkTscnNode (sec : Str) (ng : NodeG) : TscnNode :=
  ⟨ng.name, ng.type, ng.parent, ng.inst, parseProps ((splitNl sec).drop 1),
   match ng.groups with
   | some gs => parseGroups gs
   | none => []⟩

/-- The node-stanza part of the section loop: append the node; a parentless
node overwrites root_node and the "." entry of the lookup; a parented node is
appended to its parent's children when the declared parent path is registered,
and its own computed path is registered in either case. -/
def procNode (sc : TscnScene) (sec : Str) (ng : NodeG) : TscnScene :=
  match ng.parent with
  | none =>
    { sc with nodes := sc.nodes ++ [mkTscnNode sec ng]
              rootIdx := some sc.nodes.length
              nodeMap := upsert sc.nodeMap (str ".") sc.nodes.length }
  | some pp =>
    { sc with nodes := sc.nodes ++ [mkTscnNode sec ng]
              childEdges :=
                match lookupIdx sc.nodeMap pp with
                | some pidx => sc.childEdges ++ [(pidx, sc.nodes.length)]
                | none => sc.childEdges
              nodeMap := upsert sc.nodeMap (mkNodePath pp ng.name) sc.nodes.length }

/-- One iteration of the section loop of TscnParser.parse_content: stanzas
are tried as sub_resource, then node, then connection; anything else (the
header, ext_resource stanzas, stray text) is skipped. -/
def procSection (sc : TscnScene) (sec0 : Str) : TscnScene :=
  let sec := stripWs sec0
  if sec = [] then sc
  else
    match subResMatch sec with
    | some sg =>
      { sc with sub_resources := sc.sub_resources ++
          [⟨sg.id, sg.type, none, parseProps ((splitNl sec).drop 1)⟩] }
    | none =>
      match nodeHeaderMatch sec with
      | some ng => procNode sc sec ng
      | none =>
        match connMatch sec with
        | some cg =>
          { sc with connections := sc.connections ++
              [⟨cg.signal, cg.from_node, cg.to_node, cg.method, cg.flags⟩] }
        | none => sc

/-- TscnParser.parse_content: the header and the external resources are
scanned over the whole content first; sub-resources, nodes and connections are
collected in one pass over the sections. -/
def tscnParse (content : Str) (path : Str) : TscnScene :=
  let init : TscnScene :=
    { path := path
      format_version := (headerSearch content).getD 3
      ext_resources := (scanAll matchExtRes content).map fun m =>
        ⟨m.g.id, m.g.type, some m.g.path,
         match m.g.uid with
         | some u => [(str "uid", u)]
         | none => []⟩
      sub_resources := []
      nodes := []
      connections := []
      rootIdx := none
      childEdges := []
      nodeMap := [] }
  (splitSections content).foldl procSection init

/-! ### Project analyzer (project_analyzer.py)

The analyzer's state is its two path-keyed caches (relative path, parse
result) and the autoload list extracted from project.godot by
get_project_info (each autoload path already carries the res:// scheme).
File-system walking and reading are modelled by explicit lists. -/

structure Autoload where
  name : Str
  path : Str
deriving DecidableEq, Repr

/-- defaultdict(list) append: the key's list is created empty at first
access, so a key appears exactly when something was appended to it. -/
def graphAppend (g : List (Str × List (Option Str))) (k : Str) (v : Option Str) :
    List (Str × List (Option Str)) :=
  if g.any (·.1 = k) then g.map (fun p => if p.1 = k then (p.1, p.2 ++ [v]) else p)
  else g ++ [(k, [v])]

def resKey (p : Str) : Str := str "res://" ++ p

/-- get_dependency_graph: every script appends each entry of its reference
list under its res:// key; every scene appends each external resource's path
when that path is truthy, then, for every node carrying a truthy
instanced-scene reference, the path field of every external resource whose id
equals the reference (that path is appended as-is, hence the Option values).
Both truthiness tests follow Python: None and the empty string are falsy. -/
abbrev Graph := List (Str × List (Option Str))

/-- The script loop body: append every reference under the script's key. -/
def scriptDepStep (g : Graph) (pr : Str × GDClass) : Graph :=
  pr.2.preloads.foldl (fun g d => graphAppend g (resKey pr.1) (some d)) g

/-- The external-resource loop body: append the path when truthy. -/
def sceneExtStep (key : Str) (g : Graph) (r : TscnResource) : Graph :=
  match r.path with
  | some p => if p ≠ [] then graphAppend g key (some p) else g
  | none => g

/-- The node loop body: for a truthy instance reference, append the path field
of every external resource whose id equals it. -/
def sceneInstStep (key : Str) (exts : List TscnResource) (g : Graph) (n : TscnNode) :
    Graph :=
  match n.«instance» with
  | some x =>
    if x ≠ [] then
      exts.foldl (fun g r => if r.id = x then graphAppend g key r.path else g) g
    else g
  | none => g

/-- The scene loop body: the external-resource loop, then the node loop. -/
def sceneDepStep (g : Graph) (pr : Str × TscnScene) : Graph :=
  pr.2.nodes.foldl (sceneInstStep (resKey pr.1) pr.2.ext_resources)
    (pr.2.ext_resources.foldl (sceneExtStep (resKey pr.1)) g)

def depGraph (scripts : List (Str × GDClass)) (scenes : List (Str × TscnScene)) :
    Graph :=
  scenes.foldl sceneDepStep (scripts.foldl scriptDepStep [])

/-- The flattened value multiset of the graph (all_referenced is its set). -/
def referencedOf (g : List (Str × List (Option Str))) : List (Option Str) :=
  (g.map (·.2)).flatten

structure OrphanResult where
  orphaned_scripts : List Str
  orphaned_scenes : List Str
deriving DecidableEq, Repr

/-- find_orphaned_resources.  The source forms Python sets and takes set
differences; sets are modelled membership-faithfully by filtered key lists
(the claims under check are membership statements, the set's iteration order
is unspecified anyway). -/
def findOrphaned (scripts : List (Str × GDClass)) (scenes : List (Str × TscnScene))
    (autoloads : List Autoload) : OrphanResult :=
  let allReferenced := referencedOf (depGraph scripts scenes)
  let alPaths := autoloads.map (·.path)
  { orphaned_scripts := (scripts.map (fun pr => resKey pr.1)).filter
      (fun p => !allReferenced.contains (some p) && !alPaths.contains p)
    orphaned_scenes := (scenes.map (fun pr => resKey pr.1)).filter
      (fun p => !allReferenced.contains (some p)) }

deriving instance DecidableEq for Except

/-- One file yielded by Path.rglob: path relative to the project root, the
full path handed to parse_file, and the read outcome (parse_content itself is
total, so the only exception a parse_file call can raise is a read failure,
carried here as its message). -/
structure ScanFile where
  rel : Str
  full : Str
  content : Except Str Str
deriving DecidableEq, Repr

/-- One element of the list returned by scan_all_scripts. -/
inductive ScriptEntry where
  | ok (path : Str) (class_name : Option Str) (extends_name : Option Str)
      (is_tool : Bool) (function_count signal_count export_count : Nat)
  | err (path : Str) (error : Str)
deriving DecidableEq, Repr

def scriptSummary (p : Str) (g : GDClass) : ScriptEntry :=
  .ok p g.name g.«extends» g.is_tool g.functions.length g.signals.length
    g.exports.length

/-- The shared shape of the scan_all_scripts and scan_all_scenes loop bodies:
a success stores the parse under the relative path in the cache and appends a
summary record, a failure appends a path-and-error record and the loop
continues with the next file. -/
def scanStep {β γ : Type} (parse : Str → Str → β) (summary : Str → β → γ)
    (mkErr : Str → Str → γ) (acc : List (Str × β) × List γ) (f : ScanFile) :
    List (Str × β) × List γ :=
  match f.content with
  | .ok c =>
    let b := parse c f.full
    (upsert acc.1 f.rel b, acc.2 ++ [summary f.rel b])
  | .error e => (acc.1, acc.2 ++ [mkErr f.rel e])

/-- scan_all_scripts: parse each file in walk order with per-file fault
isolation. -/
def scanAllScripts (files : List ScanFile) (cache : List (Str × GDClass)) :
    List (Str × GDClass) × List ScriptEntry :=
  files.foldl (scanStep gdParse scriptSummary .err) (cache, [])

/-- One element of the list returned by scan_all_scenes. -/
inductive SceneEntry where
  | ok (path : Str) (root_type : Option Str)
      (node_count connection_count external_resources : Nat)
  | err (path : Str) (error : Str)
deriving DecidableEq, Repr

/-- scene.root_node.type if scene.root_node else None, through the root
index. -/
def rootTypeOf (sc : TscnScene) : Option Str :=
  match sc.rootIdx with
  | none => none
  | some i =>
    match sc.nodes.get? i with
    | some n => n.type
    | none => none

def sceneSummary (p : Str) (sc : TscnScene) : SceneEntry :=
  .ok p (rootTypeOf sc) sc.nodes.length sc.connections.length
    sc.ext_resources.length

/-- scan_all_scenes, with the same per-file fault isolation as the script
scan. -/
def scanAllScenes (files : List ScanFile) (cache : List (Str × TscnScene)) :
    List (Str × TscnScene) × List SceneEntry :=
  files.foldl (scanStep tscnParse sceneSummary .err) (cache, [])

/-! ### Generic facts about the finditer scanner -/

/-- Every recorded match arises from a successful matcher run at a split of
the scanned text: there are a reversed prefix rp2 and suffix s2 of the same
underlying text with the match at their junction, the recorded offset the
prefix length and the recorded line its newline count plus one. -/
theorem scanAux_mem {G : Type} {f : Str → Str → Option (G × Str × Str)} :
    ∀ (s rp : Str) (k : Nat) (m : MRec G), m ∈ scanAux f rp s k →
      ∃ rp2 s2 r, rp2.reverse ++ s2 = rp.reverse ++ s ∧ m.pos = rp2.length ∧
        m.line = nlCount rp2 + 1 ∧ f rp2 s2 = some (m.g, m.matched, r) := by
  intro s
  induction s with
  | nil => intro rp k m hm; simp [scanAux] at hm
  | cons c t ih =>
    intro rp k m hm
    match k with
    | k' + 1 =>
      obtain ⟨rp2, s2, r, h1, h2⟩ := ih (c :: rp) k' m (by simpa [scanAux] using hm)
      exact ⟨rp2, s2, r, by simpa [List.reverse_cons, List.append_assoc] using h1, h2⟩
    | 0 =>
      cases hmf : f rp (c :: t) with
      | none =>
        simp only [scanAux, hmf] at hm
        obtain ⟨rp2, s2, r, h1, h2⟩ := ih (c :: rp) 0 m hm
        exact ⟨rp2, s2, r, by simpa [List.reverse_cons, List.append_assoc] using h1, h2⟩
      | some v =>
        obtain ⟨g, mt, r⟩ := v
        simp only [scanAux, hmf, List.mem_cons] at hm
        cases hm with
        | inl he =>
          subst he
          exact ⟨rp, c :: t, r, rfl, rfl, rfl, hmf⟩
        | inr ht =>
          obtain ⟨rp2, s2, r2, h1, h2⟩ := ih (c :: rp) (mt.length - 1) m ht
          exact ⟨rp2, s2, r2, by simpa [List.reverse_cons, List.append_assoc] using h1, h2⟩

theorem scanAll_mem {G : Type} {f : Str → Str → Option (G × Str × Str)}
    {content : Str} {m : MRec G} (hm : m ∈ scanAll f content) :
    ∃ rp2 s2 r, rp2.reverse ++ s2 = content ∧ m.pos = rp2.length ∧
      m.line = nlCount rp2 + 1 ∧ f rp2 s2 = some (m.g, m.matched, r) := by
  simpa using scanAux_mem content [] 0 m hm

/-! ### Dependency-graph membership facts -/

/-- Dict access into the graph. -/
def graphLookup (g : Graph) (k : Str) : Option (List (Option Str)) :=
  (g.find? (·.1 = k)).map (·.2)

/-- v is among the values recorded under key k. -/
def memGraph (g : Graph) (k : Str) (v : Option Str) : Prop :=
  ∃ l, graphLookup g k = some l ∧ v ∈ l

theorem graphLookup_cons_self (k0 : Str) (l0 : List (Option Str)) (g : Graph) :
    graphLookup ((k0, l0) :: g) k0 = some l0 := by
  simp [graphLookup, List.find?]

theorem graphLookup_cons_ne {k0 k' : Str} (h : ¬k0 = k') (l0 : List (Option Str))
    (g : Graph) : graphLookup ((k0, l0) :: g) k' = graphLookup g k' := by
  simp [graphLookup, List.find?, h]

theorem graphAppend_cons_ne {k0 k : Str} (h : ¬k0 = k) (l0 : List (Option Str))
    (g : Graph) (v : Option Str) :
    graphAppend ((k0, l0) :: g) k v = (k0, l0) :: graphAppend g k v := by
  by_cases ha : (g.any fun p => p.1 = k) = true
  · simp [graphAppend, ha, h]
  · simp only [Bool.not_eq_true] at ha
    simp [graphAppend, ha, h]

theorem graphAppend_cons_eq (k0 : Str) (l0 : List (Option Str)) (g : Graph)
    (v : Option Str) :
    graphAppend ((k0, l0) :: g) k0 v =
      (k0, l0 ++ [v]) :: g.map fun p =>
        if p.1 = k0 then (p.1, p.2 ++ [v]) else p := by
  simp [graphAppend]

theorem memGraph_append_self (g : Graph) (k : Str) (v : Option Str) :
    memGraph (graphAppend g k v) k v := by
  induction g with
  | nil => exact ⟨[v], by simp [graphAppend, graphLookup], by simp⟩
  | cons hd g' ih =>
    obtain ⟨k0, l0⟩ := hd
    by_cases hk : k0 = k
    · subst hk
      rw [graphAppend_cons_eq]
      exact ⟨l0 ++ [v], graphLookup_cons_self _ _ _, by simp⟩
    · rw [graphAppend_cons_ne hk]
      obtain ⟨l, hl, hv⟩ := ih
      exact ⟨l, by rw [graphLookup_cons_ne hk, hl], hv⟩

theorem graphLookup_map_update {k k' : Str} (h : ¬k = k') (g : Graph)
    (v : Option Str) :
    graphLookup (g.map fun p => if p.1 = k then (p.1, p.2 ++ [v]) else p) k' =
      graphLookup g k' := by
  induction g with
  | nil => rfl
  | cons hd g' ih =>
    obtain ⟨k0, l0⟩ := hd
    by_cases hk0 : k0 = k
    · subst hk0
      have hne : ¬k0 = k' := h
      simp only [List.map_cons, if_pos rfl]
      simp [graphLookup, List.find?, hne] at ih ⊢
      exact ih
    · simp only [List.map_cons, if_neg hk0]
      by_cases hk0' : k0 = k'
      · simp [graphLookup, List.find?, hk0']
      · simp [graphLookup, List.find?, hk0'] at ih ⊢
        exact ih

theorem memGraph_append_mono {g : Graph} {k' : Str} {v' : Option Str}
    (h : memGraph g k' v') (k : Str) (v : Option Str) :
    memGraph (graphAppend g k v) k' v' := by
  induction g with
  | nil =>
    obtain ⟨l, hl, _⟩ := h
    simp [graphLookup] at hl
  | cons hd g' ih =>
    obtain ⟨k0, l0⟩ := hd
    by_cases hk0' : k0 = k'
    · subst hk0'
      have hv : v' ∈ l0 := by
        obtain ⟨l, hl, hv⟩ := h
        rw [graphLookup_cons_self] at hl
        injection hl with h2
        subst h2
        exact hv
      by_cases hk0 : k0 = k
      · subst hk0
        rw [graphAppend_cons_eq]
        exact ⟨l0 ++ [v], graphLookup_cons_self _ _ _, List.mem_append_left _ hv⟩
      · rw [graphAppend_cons_ne hk0]
        exact ⟨l0, graphLookup_cons_self _ _ _, hv⟩
    · have h' : memGraph g' k' v' := by
        obtain ⟨l, hl, hv⟩ := h
        rw [graphLookup_cons_ne hk0'] at hl
        exact ⟨l, hl, hv⟩
      by_cases hk0 : k0 = k
      · subst hk0
        rw [graphAppend_cons_eq]
        obtain ⟨l, hl, hv⟩ := h'
        refine ⟨l, ?_, hv⟩
        rw [graphLookup_cons_ne hk0', graphLookup_map_update hk0' g' v]
        exact hl
      · rw [graphAppend_cons_ne hk0]
        obtain ⟨l, hl, hv⟩ := ih h'
        exact ⟨l, by rw [graphLookup_cons_ne hk0', hl], hv⟩

/-- Graph extension: every recorded value stays recorded. -/
def GraphLE (g g' : Graph) : Prop := ∀ k v, memGraph g k v → memGraph g' k v

theorem graphLE_rfl {g : Graph} : GraphLE g g := fun _ _ h => h

theorem graphLE_trans {g1 g2 g3 : Graph} (h1 : GraphLE g1 g2) (h2 : GraphLE g2 g3) :
    GraphLE g1 g3 := fun k v h => h2 k v (h1 k v h)

theorem graphLE_append {g : Graph} {k : Str} {v : Option Str} :
    GraphLE g (graphAppend g k v) := fun _ _ h => memGraph_append_mono h k v

theorem graphLE_foldl {α : Type} {step : Graph → α → Graph}
    (hs : ∀ g a, GraphLE g (step g a)) :
    ∀ (l : List α) (g : Graph), GraphLE g (l.foldl step g) := by
  intro l
  induction l with
  | nil => exact fun g => graphLE_rfl
  | cons a t ih => exact fun g => graphLE_trans (hs g a) (ih (step g a))

theorem graphLE_scriptDepStep (g : Graph) (pr : Str × GDClass) :
    GraphLE g (scriptDepStep g pr) :=
  graphLE_foldl (fun _ _ => graphLE_append) _ _

theorem graphLE_sceneExtStep (key : Str) (g : Graph) (r : TscnResource) :
    GraphLE g (sceneExtStep key g r) := by
  unfold sceneExtStep
  split
  · split
    · exact graphLE_append
    · exact graphLE_rfl
  · exact graphLE_rfl

theorem graphLE_sceneInstStep (key : Str) (exts : List TscnResource) (g : Graph)
    (n : TscnNode) : GraphLE g (sceneInstStep key exts g n) := by
  unfold sceneInstStep
  split
  · split
    · refine graphLE_foldl (fun g r => ?_) _ _
      split
      · exact graphLE_append
      · exact graphLE_rfl
    · exact graphLE_rfl
  · exact graphLE_rfl

theorem graphLE_sceneDepStep (g : Graph) (pr : Str × TscnScene) :
    GraphLE g (sceneDepStep g pr) :=
  graphLE_trans (graphLE_foldl (graphLE_sceneExtStep _) _ _)
    (graphLE_foldl (graphLE_sceneInstStep _ _) _ _)

/-- Reaching one list element inside a fold whose steps only extend the graph:
when processing a itself records (k, v) from any incoming graph, the whole
fold records it. -/
theorem memGraph_foldl_of_mem {α : Type} {step : Graph → α → Graph}
    (hs : ∀ g a, GraphLE g (step g a)) {l : List α} {a : α} (ha : a ∈ l)
    {k : Str} {v : Option Str} (hadd : ∀ g, memGraph (step g a) k v) :
    ∀ g, memGraph (l.foldl step g) k v := by
  induction l with
  | nil => cases ha
  | cons b t ih =>
    intro g
    rcases List.mem_cons.1 ha with rfl | hat
    · exact graphLE_foldl hs t (step g a) k v (hadd g)
    · exact ih hat (step g b)

/-! ### Cache upsert and scan-fold facts -/

/-- Dict access for the path-keyed caches. -/
def alookup {β : Type} (d : List (Str × β)) (k : Str) : Option β :=
  (d.find? (·.1 = k)).map (·.2)

theorem alookup_cons_self {β : Type} (k0 : Str) (v0 : β) (d : List (Str × β)) :
    alookup ((k0, v0) :: d) k0 = some v0 := by
  simp [alookup, List.find?]

theorem alookup_cons_ne {β : Type} {k0 k' : Str} (h : ¬k0 = k') (v0 : β)
    (d : List (Str × β)) : alookup ((k0, v0) :: d) k' = alookup d k' := by
  simp [alookup, List.find?, h]

theorem upsert_cons_ne {β : Type} {k0 k : Str} (h : ¬k0 = k) (v0 : β)
    (d : List (Str × β)) (v : β) :
    upsert ((k0, v0) :: d) k v = (k0, v0) :: upsert d k v := by
  by_cases ha : (d.any fun p => p.1 = k) = true
  · simp [upsert, ha, h]
  · simp only [Bool.not_eq_true] at ha
    simp [upsert, ha, h]

theorem upsert_cons_eq {β : Type} (k0 : Str) (v0 : β) (d : List (Str × β)) (v : β) :
    upsert ((k0, v0) :: d) k0 v =
      (k0, v) :: d.map fun p => if p.1 = k0 then (k0, v) else p := by
  simp [upsert]

theorem alookup_map_replace {β : Type} {k k' : Str} (h : ¬k = k')
    (d : List (Str × β)) (v : β) :
    alookup (d.map fun p => if p.1 = k then (k, v) else p) k' = alookup d k' := by
  induction d with
  | nil => rfl
  | cons hd d' ih =>
    obtain ⟨k0, v0⟩ := hd
    by_cases hk0 : k0 = k
    · subst hk0
      have hstep : ((k0, v0) :: d').map (fun p => if p.1 = k0 then (k0, v) else p) =
          (k0, v) :: d'.map fun p => if p.1 = k0 then (k0, v) else p := by
        simp
      rw [hstep, alookup_cons_ne h, alookup_cons_ne h, ih]
    · simp only [List.map_cons, if_neg hk0]
      by_cases hk0' : k0 = k'
      · subst hk0'
        rw [alookup_cons_self, alookup_cons_self]
      · rw [alookup_cons_ne hk0', alookup_cons_ne hk0', ih]

theorem alookup_upsert_self {β : Type} (d : List (Str × β)) (k : Str) (v : β) :
    alookup (upsert d k v) k = some v := by
  induction d with
  | nil => simp [upsert, alookup, List.find?]
  | cons hd d' ih =>
    obtain ⟨k0, v0⟩ := hd
    by_cases hk : k0 = k
    · subst hk
      rw [upsert_cons_eq, alookup_cons_self]
    · rw [upsert_cons_ne hk, alookup_cons_ne hk, ih]

theorem alookup_upsert_ne {β : Type} {k k' : Str} (h : ¬k = k')
    (d : List (Str × β)) (v : β) :
    alookup (upsert d k v) k' = alookup d k' := by
  induction d with
  | nil => simp [upsert, alookup, List.find?, h]
  | cons hd d' ih =>
    obtain ⟨k0, v0⟩ := hd
    by_cases hk0 : k0 = k
    · subst hk0
      rw [upsert_cons_eq, alookup_cons_ne h, alookup_map_replace h, alookup_cons_ne h]
    · rw [upsert_cons_ne hk0]
      by_cases hk0' : k0 = k'
      · subst hk0'
        rw [alookup_cons_self, alookup_cons_self]
      · rw [alookup_cons_ne hk0', alookup_cons_ne hk0', ih]

/-- The entry list of a scan fold is one record per file, in walk order. -/
theorem scanStep_entries {β γ : Type} (parse : Str → Str → β)
    (summary : Str → β → γ) (mkErr : Str → Str → γ) :
    ∀ (files : List ScanFile) (st : List (Str × β) × List γ),
      (files.foldl (scanStep parse summary mkErr) st).2 =
        st.2 ++ files.map fun f =>
          match f.content with
          | .ok c => summary f.rel (parse c f.full)
          | .error e => mkErr f.rel e := by
  intro files
  induction files with
  | nil => simp
  | cons f t ih =>
    intro st
    rw [List.foldl_cons, ih]
    cases hc : f.content <;> simp [scanStep, hc]

/-- A scan fold leaves cache keys alone that name none of the scanned files. -/
theorem scanStep_cache_skip {β γ : Type} (parse : Str → Str → β)
    (summary : Str → β → γ) (mkErr : Str → Str → γ) :
    ∀ (files : List ScanFile) (st : List (Str × β) × List γ) (k : Str),
      (∀ f ∈ files, ¬f.rel = k) →
      alookup (files.foldl (scanStep parse summary mkErr) st).1 k = alookup st.1 k := by
  intro files
  induction files with
  | nil => intro st k _; rfl
  | cons f t ih =>
    intro st k hk
    rw [List.foldl_cons, ih _ _ (fun f' hf' => hk f' (List.mem_cons_of_mem _ hf'))]
    cases hc : f.content with
    | ok c => simp [scanStep, hc, alookup_upsert_ne (hk f (List.mem_cons_self _ _))]
    | error e => simp [scanStep, hc]

/-- A successfully read file whose relative path is unique among the scanned
files ends up in the cache under that path, parsed. -/
theorem scanStep_cache_hit {β γ : Type} (parse : Str → Str → β)
    (summary : Str → β → γ) (mkErr : Str → Str → γ) :
    ∀ (files : List ScanFile) (st : List (Str × β) × List γ) (f : ScanFile)
      (c : Str), f ∈ files → f.content = .ok c → (files.map (·.rel)).Nodup →
      alookup (files.foldl (scanStep parse summary mkErr) st).1 f.rel =
        some (parse c f.full) := by
  intro files
  induction files with
  | nil => intro _ _ _ h; cases h
  | cons b t ih =>
    intro st f c hf hc hnd
    rw [List.map_cons] at hnd
    rw [List.foldl_cons]
    rcases List.mem_cons.1 hf with rfl | hft
    · have hnotin : ∀ f' ∈ t, ¬f'.rel = f.rel := by
        intro f' hf' he
        exact (List.nodup_cons.1 hnd).1
          (by rw [← he]; exact List.mem_map_of_mem (fun x => x.rel) hf')
      rw [scanStep_cache_skip _ _ _ _ _ _ hnotin]
      simp [scanStep, hc, alookup_upsert_self]
    · exact ih _ f c hft hc (List.nodup_cons.1 hnd).2

/-! ### Decomposition facts for the matcher primitives -/

theorem pLit_decomp : ∀ {l s r : Str}, pLit l s = some r → s = l ++ r := by
  intro l
  induction l with
  | nil =>
    intro s r h
    simp only [pLit, Option.some.injEq] at h
    rw [h, List.nil_append]
  | cons c lt ih =>
    intro s r h
    cases s with
    | nil => simp [pLit] at h
    | cons c2 ct =>
      simp only [pLit] at h
      split at h
      · next heq => rw [heq, ih h, List.cons_append]
      · cases h

theorem pRun1_decomp {p : Char → Bool} {s a r : Str} (h : pRun1 p s = some (a, r)) :
    s = a ++ r ∧ a ≠ [] ∧ ∀ c ∈ a, p c = true := by
  unfold pRun1 at h
  simp only [] at h
  split at h
  · cases h
  · next hne =>
    rw [Option.some.injEq, Prod.mk.injEq] at h
    obtain ⟨ha, hr⟩ := h
    subst ha
    subst hr
    refine ⟨(List.takeWhile_append_dropWhile ..).symm, ?_,
      fun c hc => List.mem_takeWhile_imp hc⟩
    intro hnil
    exact hne (by rw [hnil]; rfl)

theorem spanWs_decomp {s a b : Str} (h : spanWs s = (a, b)) :
    s = a ++ b ∧ ∀ c ∈ a, isPySpace c = true := by
  unfold spanWs at h
  rw [Prod.mk.injEq] at h
  obtain ⟨ha, hb⟩ := h
  subst ha
  subst hb
  exact ⟨(List.takeWhile_append_dropWhile ..).symm,
    fun c hc => List.mem_takeWhile_imp hc⟩

theorem lazyToParen_decomp : ∀ {s a r : Str}, lazyToParen s = some (a, r) →
    s = a ++ ')' :: r ∧ ∀ c ∈ a, ¬c = ')' ∧ ¬c = '\n' := by
  intro s
  induction s with
  | nil => intro a r h; cases h
  | cons c t ih =>
    intro a r h
    simp only [lazyToParen] at h
    split at h
    · next hc =>
      rw [Option.some.injEq, Prod.mk.injEq] at h
      obtain ⟨ha, hr⟩ := h
      subst ha
      subst hr
      exact ⟨by rw [hc]; rfl, by simp⟩
    · split at h
      · cases h
      · next hcp hcn =>
        cases hlz : lazyToParen t with
        | none => rw [hlz] at h; cases h
        | some v =>
          obtain ⟨a2, r2⟩ := v
          rw [hlz] at h
          simp only [Option.some.injEq, Prod.mk.injEq] at h
          obtain ⟨ha, hr⟩ := h
          subst hr
          obtain ⟨ht, hmem⟩ := ih hlz
          subst ha
          refine ⟨by rw [ht, List.cons_append], ?_⟩
          intro x hx
          rcases List.mem_cons.1 hx with rfl | hx2
          · exact ⟨hcp, hcn⟩
          · exact hmem x hx2

theorem tailMatch_decomp {u tc rest : Str} (h : tailMatch u = some (tc, rest)) :
    u = tc ++ rest := by
  unfold tailMatch at h
  cases hsp : spanWs u with
  | mk a b =>
    rw [hsp] at h
    obtain ⟨hu, _⟩ := spanWs_decomp hsp
    simp only [] at h
    split at h
    · next b2 =>
      rw [Option.some.injEq, Prod.mk.injEq] at h
      obtain ⟨htc, hrest⟩ := h
      subst htc
      subst hrest
      rw [hu]
      simp
    · split at h
      · rw [Option.some.injEq, Prod.mk.injEq] at h
        obtain ⟨htc, hrest⟩ := h
        subst htc
        subst hrest
        rfl
      · cases h

theorem lazyLoop_decomp : ∀ {u acc d tc r : Str}, lazyLoop acc u = some (d, tc, r) →
    acc.reverse ++ u = d ++ (tc ++ r) := by
  intro u
  induction u with
  | nil =>
    intro acc d tc r h
    simp only [lazyLoop, Option.some.injEq, Prod.mk.injEq] at h
    obtain ⟨hd, htc, hr⟩ := h
    subst hd; subst htc; subst hr
    simp
  | cons ch u2 ih =>
    intro acc d tc r h
    simp only [lazyLoop] at h
    split at h
    · next tc2 rest2 hm =>
      rw [Option.some.injEq, Prod.mk.injEq, Prod.mk.injEq] at h
      obtain ⟨hd, htc, hr⟩ := h
      subst hd; subst htc; subst hr
      rw [tailMatch_decomp hm]
    · split at h
      · cases h
      · have := ih h
        simpa using this

theorem lastNonNl_decomp : ∀ {c i r : Str} {x : Char},
    lastNonNl c = some (i, x, r) → c = i ++ x :: r := by
  intro c
  induction c with
  | nil => intro i r x h; cases h
  | cons ch t ih =>
    intro i r x h
    simp only [lastNonNl] at h
    cases hlt : lastNonNl t with
    | some v =>
      obtain ⟨i2, x2, r2⟩ := v
      rw [hlt] at h
      simp only [Option.some.injEq, Prod.mk.injEq] at h
      obtain ⟨hi, hx, hr⟩ := h
      subst hi
      subst hx
      subst hr
      rw [ih hlt]
      rfl
    | none =>
      simp only [hlt] at h
      split at h
      · cases h
      · simp only [Option.some.injEq, Prod.mk.injEq] at h
        obtain ⟨hi, hx, hr⟩ := h
        subst hi
        subst hx
        subst hr
        rfl

theorem tryType_decomp {s tp r : Str} {ty : Option Str} (h : tryType s = (tp, ty, r)) :
    s = tp ++ r := by
  unfold tryType at h
  cases hsp : spanWs s with
  | mk a b =>
    rw [hsp] at h
    obtain ⟨hs, _⟩ := spanWs_decomp hsp
    simp only [] at h
    split at h
    · next b2 =>
      cases hsp2 : spanWs b2 with
      | mk a2 b3 =>
        rw [hsp2] at h
        obtain ⟨hb2, _⟩ := spanWs_decomp hsp2
        simp only [] at h
        split at h
        · next t2 b4 hw =>
          obtain ⟨hb3, _, _⟩ := pRun1_decomp hw
          simp only [Prod.mk.injEq] at h
          obtain ⟨htp, _, hr⟩ := h
          subst htp
          subst hr
          rw [hs, hb2, hb3]
          simp
        · simp only [Prod.mk.injEq] at h
          obtain ⟨htp, _, hr⟩ := h
          subst htp
          subst hr
          rfl
    · simp only [Prod.mk.injEq] at h
      obtain ⟨htp, _, hr⟩ := h
      subst htp
      subst hr
      rfl

theorem tryDefaultTail_decomp {s tl r : Str} {df : Option Str}
    (h : tryDefaultTail s = some (tl, df, r)) : s = tl ++ r := by
  unfold tryDefaultTail at h
  simp only [] at h
  split at h
  · next v htaken =>
    rw [Option.some.injEq] at h
    subst h
    cases hsp : spanWs s with
    | mk a b =>
      rw [hsp] at htaken
      obtain ⟨hs, _⟩ := spanWs_decomp hsp
      simp only [] at htaken
      split at htaken
      · next b2 =>
        cases hsp2 : spanWs b2 with
        | mk c d =>
          rw [hsp2] at htaken
          obtain ⟨hb2, _⟩ := spanWs_decomp hsp2
          simp only [] at htaken
          split at htaken
          · next ch d2 =>
            cases hlz : lazyLoop [ch] d2 with
            | none => rw [hlz] at htaken; cases htaken
            | some v2 =>
              obtain ⟨df2, tc2, rest2⟩ := v2
              rw [hlz] at htaken
              simp only [Option.some.injEq, Prod.mk.injEq] at htaken
              obtain ⟨htl, _, hr⟩ := htaken
              subst htl
              subst hr
              have hdec := lazyLoop_decomp hlz
              simp only [List.reverse_cons, List.reverse_nil, List.nil_append,
                List.singleton_append] at hdec
              rw [hs, hb2, hdec]
              simp
          · cases hln : lastNonNl c with
            | none => rw [hln] at htaken; cases htaken
            | some v2 =>
              obtain ⟨i2, x2, r2⟩ := v2
              rw [hln] at htaken
              simp only [Option.some.injEq, Prod.mk.injEq] at htaken
              obtain ⟨htl, _, hr⟩ := htaken
              subst htl
              subst hr
              rw [hs, hb2, lastNonNl_decomp hln]
              simp
      · cases htaken
  · split at h
    · next tc2 rest2 hm =>
      simp only [Option.some.injEq, Prod.mk.injEq] at h
      obtain ⟨htl, _, hr⟩ := h
      subst htl
      subst hr
      exact tailMatch_decomp hm
    · cases h

/-! ### Anatomy of the signal, var and export matches -/

theorem matchVarCore_anatomy {s : Str} {g : VG} {mt r : Str}
    (h : matchVarCore s = some (g, mt, r)) :
    s = mt ++ r ∧ ∃ w1 nm rest2, mt = str "var" ++ (w1 ++ (nm ++ rest2)) ∧
      (∀ c ∈ w1, isPySpace c = true) ∧ w1 ≠ [] ∧ nm ≠ [] ∧
      (∀ c ∈ nm, isWordChar c = true) ∧ g.nameOff = 3 + w1.length := by
  unfold matchVarCore at h
  cases hl : pLit (str "var") s with
  | none => rw [hl] at h; cases h
  | some s1 =>
    rw [hl] at h
    simp only [] at h
    have hs1 := pLit_decomp hl
    cases hw : pWs1 s1 with
    | none => rw [hw] at h; simp only [] at h; cases h
    | some v =>
      obtain ⟨w1, s2⟩ := v
      rw [hw] at h
      simp only [] at h
      obtain ⟨hs1d, hw1ne, hw1ws⟩ := pRun1_decomp hw
      cases hn : pWord1 s2 with
      | none => rw [hn] at h; simp only [] at h; cases h
      | some v2 =>
        obtain ⟨nm, s3⟩ := v2
        rw [hn] at h
        simp only [] at h
        obtain ⟨hs2d, hnmne, hnmw⟩ := pRun1_decomp hn
        cases htt : tryType s3 with
        | mk tp v3 =>
          obtain ⟨ty, s4⟩ := v3
          rw [htt] at h
          have hs3d := tryType_decomp htt
          simp only [] at h
          cases hdt : tryDefaultTail s4 with
          | none => rw [hdt] at h; simp only [] at h; cases h
          | some v4 =>
            obtain ⟨tl, df, s5⟩ := v4
            rw [hdt] at h
            have hs4d := tryDefaultTail_decomp hdt
            simp only [Option.some.injEq, Prod.mk.injEq] at h
            obtain ⟨hg, hmt, hr⟩ := h
            subst hg
            subst hmt
            subst hr
            refine ⟨?_, w1, nm, tp ++ tl, by simp, hw1ws, hw1ne, hnmne, hnmw, rfl⟩
            rw [hs1, hs1d, hs2d, hs3d, hs4d]
            simp

theorem matchVar_anatomy {rp s : Str} {g : VG} {mt r : Str}
    (h : matchVar rp s = some (g, mt, r)) :
    atLS rp = true ∧ matchVarCore s = some (g, mt, r) := by
  unfold matchVar at h
  split at h
  · next hls => exact ⟨hls, h⟩
  · cases h

theorem contAfterHead_anatomy {hint hargs : Option Str} {ht s : Str} {g : EG}
    {mt r : Str} (h : contAfterHead hint hargs ht s = some (g, mt, r)) :
    ∃ wv mtc, s = wv ++ (mtc ++ r) ∧ mt = ht ++ (wv ++ mtc) ∧
      (∀ c ∈ wv, isPySpace c = true) ∧
      ∃ w1 nm rest2, mtc = str "var" ++ (w1 ++ (nm ++ rest2)) ∧
        (∀ c ∈ w1, isPySpace c = true) ∧ w1 ≠ [] ∧ nm ≠ [] ∧
        g.nameOff = ht.length + wv.length + (3 + w1.length) := by
  unfold contAfterHead at h
  cases hsp : spanWs s with
  | mk wv s1 =>
    rw [hsp] at h
    obtain ⟨hsd, hwv⟩ := spanWs_decomp hsp
    simp only [] at h
    cases hvc : matchVarCore s1 with
    | none => rw [hvc] at h; cases h
    | some v =>
      obtain ⟨vg, mtc, rest⟩ := v
      rw [hvc] at h
      simp only [Option.some.injEq, Prod.mk.injEq] at h
      obtain ⟨hg, hmt, hr⟩ := h
      subst hg
      subst hmt
      subst hr
      obtain ⟨hs1d, w1, nm, rest2, hmtc, hws, hne, hnmne, _, hoff⟩ :=
        matchVarCore_anatomy hvc
      refine ⟨wv, mtc, by rw [hsd, hs1d], by simp, hwv,
        w1, nm, rest2, hmtc, hws, hne, hnmne, ?_⟩
      show ht.length + wv.length + vg.nameOff = _
      rw [hoff]

/-- The shared conclusion of every branch of EXPORT_PATTERN: the matched text
prefixes what the head started, begins with the at sign, and the name offset
sits strictly inside it. -/
theorem matchExport_from_cont {hint hargs : Option Str} {ht s3 : Str} {g : EG}
    {mt r : Str} (hc : contAfterHead hint hargs ht s3 = some (g, mt, r))
    (hne : ht ≠ []) (hh : ht.head? = some '@') :
    ht ++ s3 = mt ++ r ∧ mt.head? = some '@' ∧ 1 ≤ g.nameOff ∧
      g.nameOff < mt.length := by
  obtain ⟨wv, mtc, hs3, hmt, _, w1, nm, rest2, hmtc, _, _, hnmne, hoff⟩ :=
    contAfterHead_anatomy hc
  refine ⟨by rw [hs3, hmt]; simp, ?_, ?_, ?_⟩
  · rw [hmt]
    cases ht with
    | nil => exact absurd rfl hne
    | cons c t => simpa using hh
  · rw [hoff]
    have : 1 ≤ ht.length := by
      cases ht with
      | nil => exact absurd rfl hne
      | cons c t => simp
    omega
  · rw [hoff, hmt, hmtc]
    have hnm1 : 1 ≤ nm.length := by
      cases nm with
      | nil => exact absurd rfl hnmne
      | cons c t => simp
    simp [List.length_append, str]
    omega

/-- Every success of the hint-argument backtracking loop comes from the
continuation on a split of the text right after the at sign, with the head up
to and including the tried closing parenthesis. -/
theorem hintArgsLoop_anatomy {hn : Str} {g : EG} {mt r : Str} :
    ∀ (s acc : Str), hintArgsLoop hn acc s = some (g, mt, r) →
      ∃ hargs ht s3, contAfterHead (some hn) hargs ht s3 = some (g, mt, r) ∧
        (str "@export_" ++ hn) ++ '(' :: (acc.reverse ++ s) = ht ++ s3 ∧
        ht ≠ [] ∧ ht.head? = some '@' := by
  intro s
  induction s with
  | nil => intro acc h; simp [hintArgsLoop] at h
  | cons c t ih =>
    intro acc h
    unfold hintArgsLoop at h
    by_cases hc : c = ')'
    · subst hc
      rw [if_pos rfl] at h
      cases hcont : contAfterHead (some hn) (some acc.reverse)
          (str "@export_" ++ hn ++ '(' :: (acc.reverse ++ [')'])) t with
      | some v =>
        rw [hcont] at h
        simp only [Option.some.injEq] at h
        subst h
        refine ⟨some acc.reverse,
          str "@export_" ++ hn ++ '(' :: (acc.reverse ++ [')']), t, hcont, ?_,
          by simp [str], by simp [str]⟩
        simp
      | none =>
        rw [hcont] at h
        simp only [] at h
        obtain ⟨hargs, ht, s3, hcont2, heq, hne, hh⟩ := ih (')' :: acc) h
        refine ⟨hargs, ht, s3, hcont2, ?_, hne, hh⟩
        rw [← heq]
        simp
    · rw [if_neg hc] at h
      by_cases hnl : c = '\n'
      · rw [if_pos hnl] at h
        cases h
      · rw [if_neg hnl] at h
        obtain ⟨hargs, ht, s3, hcont2, heq, hne, hh⟩ := ih (c :: acc) h
        refine ⟨hargs, ht, s3, hcont2, ?_, hne, hh⟩
        rw [← heq]
        simp

/-- Every success of one hint-name candidate comes from the continuation on a
split of the text right after the at sign. -/
theorem tryHintOne_anatomy {hn rest2 : Str} {g : EG} {mt r : Str}
    (h : tryHintOne hn rest2 = some (g, mt, r)) :
    ∃ hargs ht s3, contAfterHead (some hn) hargs ht s3 = some (g, mt, r) ∧
      (str "@export_" ++ hn) ++ rest2 = ht ++ s3 ∧ ht ≠ [] ∧
      ht.head? = some '@' := by
  unfold tryHintOne at h
  split at h
  · next s4 =>
    cases hl : hintArgsLoop hn [] s4 with
    | some v =>
      rw [hl] at h
      simp only [Option.some.injEq] at h
      subst h
      obtain ⟨hargs, ht, s3, hcont, heq, hne, hh⟩ := hintArgsLoop_anatomy s4 [] hl
      refine ⟨hargs, ht, s3, hcont, ?_, hne, hh⟩
      rw [← heq]
      simp
    | none =>
      rw [hl] at h
      simp only [] at h
      exact ⟨none, str "@export_" ++ hn, '(' :: s4, h, by simp, by simp [str],
        by simp [str]⟩
  · exact ⟨none, str "@export_" ++ hn, rest2, h, by simp, by simp [str],
      by simp [str]⟩

theorem tryHintLens_anatomy {w s2 : Str} {g : EG} {mt r : Str} :
    ∀ l, tryHintLens w s2 l = some (g, mt, r) →
      ∃ hint hargs ht s3, contAfterHead hint hargs ht s3 = some (g, mt, r) ∧
        str "@export" ++ ('_' :: (w ++ s2)) = ht ++ s3 ∧ ht ≠ [] ∧
        ht.head? = some '@' := by
  intro l
  induction l with
  | zero =>
    intro h
    exact ⟨none, none, str "@export", '_' :: (w ++ s2), h, rfl, by simp [str],
      by simp [str]⟩
  | succ l ih =>
    intro h
    simp only [tryHintLens] at h
    cases hto : tryHintOne (w.take (l + 1)) (w.drop (l + 1) ++ s2) with
    | some v =>
      rw [hto] at h
      simp only [Option.some.injEq] at h
      subst h
      obtain ⟨hargs, ht, s3, hcont, heq, hne, hh⟩ := tryHintOne_anatomy hto
      refine ⟨some (w.take (l + 1)), hargs, ht, s3, hcont, ?_, hne, hh⟩
      rw [← heq]
      have hip : (str "@export_" : Str) = str "@export" ++ ['_'] := rfl
      rw [hip]
      simp only [List.append_assoc, List.singleton_append, List.cons_append]
      rw [← List.append_assoc (w.take (l + 1)), List.take_append_drop]
      simp
    | none =>
      rw [hto] at h
      simp only [] at h
      exact ih h

theorem matchExport_anatomy {rp s : Str} {g : EG} {mt r : Str}
    (h : matchExport rp s = some (g, mt, r)) :
    atLS rp = true ∧ s = mt ++ r ∧ mt.head? = some '@' ∧ 1 ≤ g.nameOff ∧
      g.nameOff < mt.length := by
  unfold matchExport at h
  split at h
  · next hls =>
    cases hl : pLit (str "@export") s with
    | none => rw [hl] at h; cases h
    | some s1 =>
      rw [hl] at h
      simp only [] at h
      have hsd := pLit_decomp hl
      have hgen : ∀ (hint hargs : Option Str),
          contAfterHead hint hargs (str "@export") s1 = some (g, mt, r) →
          atLS rp = true ∧ s = mt ++ r ∧ mt.head? = some '@' ∧ 1 ≤ g.nameOff ∧
            g.nameOff < mt.length := by
        intro hint hargs hc
        obtain ⟨heq, hh, h1, h2⟩ :=
          matchExport_from_cont hc (by simp [str]) (by simp [str])
        exact ⟨hls, by rw [hsd, heq], hh, h1, h2⟩
      split at h
      · next s1' =>
        cases hw : pWord1 s1' with
        | none =>
          rw [hw] at h
          simp only [] at h
          exact hgen none none h
        | some v =>
          obtain ⟨w, s2⟩ := v
          rw [hw] at h
          simp only [] at h
          obtain ⟨ht1, _, _⟩ := pRun1_decomp hw
          obtain ⟨hint, hargs, ht, s3, hc, heq2, hhne, hhh⟩ :=
            tryHintLens_anatomy _ h
          obtain ⟨heq, hh, h1, h2⟩ := matchExport_from_cont hc hhne hhh
          refine ⟨hls, ?_, hh, h1, h2⟩
          rw [hsd, ht1, ← heq, ← heq2]
      · exact hgen none none h
  · cases h

theorem get?_concat_at {A mt r : Str} {j : Nat} (hj : j < mt.length) :
    (A ++ (mt ++ r)).get? (A.length + j) = mt.get? j := by
  rw [List.get?_append_right (Nat.le_add_right _ _)]
  rw [show A.length + j - A.length = j from by omega]
  exact List.get?_append hj

/-- A match found at a caret position sits at offset zero or right after a
newline of the text. -/
theorem atLS_content {rp s : Str} (h : atLS rp = true) :
    rp.length = 0 ∨ (rp.reverse ++ s).get? (rp.length - 1) = some '\n' := by
  unfold atLS at h
  simp only [Bool.or_eq_true, decide_eq_true_eq] at h
  rcases h with h | h
  · left
    rw [h]
    rfl
  · right
    cases rp with
    | nil => cases h
    | cons c t =>
      simp only [List.head?_cons, Option.some.injEq] at h
      subst h
      rw [List.reverse_cons, List.append_assoc,
        List.get?_append_right (by simp)]
      simp

/-! ### Root-assembly facts for the scene parser -/

/-- Index of the last parentless node record, the stanza that ends up as
root_node. -/
def lastNoParentIdx : List TscnNode → Option Nat
  | [] => none
  | n :: t =>
    match lastNoParentIdx t with
    | some i => some (i + 1)
    | none => if n.parent = none then some 0 else none

theorem lastNoParentIdx_append (ns : List TscnNode) (n : TscnNode) :
    lastNoParentIdx (ns ++ [n]) =
      if n.parent = none then some ns.length else lastNoParentIdx ns := by
  induction ns with
  | nil => simp [lastNoParentIdx]
  | cons m t ih =>
    have hL : lastNoParentIdx ((m :: t) ++ [n]) =
        match lastNoParentIdx (t ++ [n]) with
        | some i => some (i + 1)
        | none => if m.parent = none then some 0 else none := rfl
    rw [hL, ih]
    by_cases hc : n.parent = none
    · rw [if_pos hc, if_pos hc]
      rfl
    · rw [if_neg hc, if_neg hc]
      rfl

theorem lookupIdx_eq_alookup (m : List (Str × Nat)) (k : Str) :
    lookupIdx m k = alookup m k := rfl

/-- No node's computed path can be the literal "." (the one way the root's
lookup entry could be overwritten by the else branch). -/
def NoDotPath (ns : List TscnNode) : Prop :=
  ∀ n ∈ ns, ¬(n.parent = some (str ".") ∧ n.name = str ".")

/-- Invariant of the section loop: root_node is the last parentless node, and
as long as no node computes the literal path ".", the "." entry of the lookup
is the root. -/
def RootInv (sc : TscnScene) : Prop :=
  sc.rootIdx = lastNoParentIdx sc.nodes ∧
  (NoDotPath sc.nodes → lookupIdx sc.nodeMap (str ".") = sc.rootIdx)

theorem mkNodePath_ne_dot {pp nm : Str} (h : ¬(pp = str "." ∧ nm = str ".")) :
    ¬mkNodePath pp nm = str "." := by
  unfold mkNodePath
  by_cases hpp : pp = str "."
  · rw [if_pos hpp]
    intro hnm
    exact h ⟨hpp, hnm⟩
  · rw [if_neg hpp]
    intro heq
    cases pp with
    | nil => simp [str] at heq
    | cons a t => simp [str] at heq

theorem procNode_nodes (sc : TscnScene) (sec : Str) (ng : NodeG) :
    (procNode sc sec ng).nodes = sc.nodes ++ [mkTscnNode sec ng] := by
  unfold procNode
  cases ng.parent <;> rfl

theorem procNode_parent_none (sc : TscnScene) (sec : Str) (ng : NodeG)
    (hp : ng.parent = none) :
    procNode sc sec ng =
      { sc with nodes := sc.nodes ++ [mkTscnNode sec ng]
                rootIdx := some sc.nodes.length
                nodeMap := upsert sc.nodeMap (str ".") sc.nodes.length } := by
  unfold procNode
  rw [hp]

theorem procNode_some_rootIdx (sc : TscnScene) (sec : Str) (ng : NodeG) (pp : Str)
    (hp : ng.parent = some pp) : (procNode sc sec ng).rootIdx = sc.rootIdx := by
  unfold procNode
  rw [hp]

theorem procNode_some_nodeMap (sc : TscnScene) (sec : Str) (ng : NodeG) (pp : Str)
    (hp : ng.parent = some pp) :
    (procNode sc sec ng).nodeMap =
      upsert sc.nodeMap (mkNodePath pp ng.name) sc.nodes.length := by
  unfold procNode
  rw [hp]

theorem procNode_rootInv {sc : TscnScene} {sec : Str} {ng : NodeG}
    (h : RootInv sc) : RootInv (procNode sc sec ng) := by
  obtain ⟨h1, h2⟩ := h
  cases hp : ng.parent with
  | none =>
    rw [procNode_parent_none sc sec ng hp]
    constructor
    · show some sc.nodes.length = lastNoParentIdx (sc.nodes ++ [mkTscnNode sec ng])
      rw [lastNoParentIdx_append, show (mkTscnNode sec ng).parent = ng.parent from rfl,
        hp, if_pos rfl]
    · intro _
      show lookupIdx (upsert sc.nodeMap (str ".") sc.nodes.length) (str ".") =
        some sc.nodes.length
      rw [lookupIdx_eq_alookup, alookup_upsert_self]
  | some pp =>
    have hnodes := procNode_nodes sc sec ng
    have hroot := procNode_some_rootIdx sc sec ng pp hp
    have hmap := procNode_some_nodeMap sc sec ng pp hp
    constructor
    · rw [hroot, hnodes, lastNoParentIdx_append,
        show (mkTscnNode sec ng).parent = ng.parent from rfl, hp,
        if_neg (by simp)]
      exact h1
    · intro hnd
      have hne : ¬mkNodePath pp ng.name = str "." := by
        apply mkNodePath_ne_dot
        rintro ⟨hpp, hnm⟩
        refine hnd (mkTscnNode sec ng) ?_ ⟨?_, hnm⟩
        · rw [hnodes]
          exact List.mem_append_right _ (List.mem_singleton.2 rfl)
        · rw [show (mkTscnNode sec ng).parent = ng.parent from rfl, hp, hpp]
      rw [hmap, hroot, lookupIdx_eq_alookup, alookup_upsert_ne hne,
        ← lookupIdx_eq_alookup]
      refine h2 fun n hn => hnd n ?_
      rw [hnodes]
      exact List.mem_append_left _ hn

theorem procSection_rootInv (sc : TscnScene) (sec0 : Str) (h : RootInv sc) :
    RootInv (procSection sc sec0) := by
  unfold procSection
  dsimp only
  split
  · exact h
  · split
    · exact ⟨h.1, h.2⟩
    · split
      · exact procNode_rootInv h
      · split
        · exact ⟨h.1, h.2⟩
        · exact h

theorem foldl_rootInv : ∀ (secs : List Str) (sc : TscnScene), RootInv sc →
    RootInv (secs.foldl procSection sc) := by
  intro secs
  induction secs with
  | nil => exact fun sc h => h
  | cons sec t ih => exact fun sc h => ih _ (procSection_rootInv sc sec h)

theorem tscnParse_rootInv (content path : Str) : RootInv (tscnParse content path) := by
  unfold tscnParse
  exact foldl_rootInv _ _ ⟨rfl, fun _ => rfl⟩

/-! ### Claim theorems -/

/-- C8: parsing the same script or scene content twice yields structurally
identical results.  Both parse_content embeddings are pure functions of the
content and path alone: the Python parser objects hold no mutable instance
state (their compiled patterns are immutable class attributes and every other
variable is local to the call), which the embedding renders as plain function
application, making the repeated parse definitionally the same value. -/
theorem c8_parse_deterministic (content path : Str) :
    gdParse content path = gdParse content path ∧
    tscnParse content path = tscnParse content path :=
  ⟨rfl, rfl⟩

/-- C10: a call to an identifier that merely ends in the letters load, such as
reload("res://a.tres"), is matched by the plain-load pattern at the offset of
its load suffix (offset 2), because the lookbehind excludes only the three
characters pre; the quoted path is therefore added to the reference list. -/
theorem c10_reload_counted :
    (gdParse (str "reload(\"res://a.tres\")") []).preloads = [str "res://a.tres"] ∧
    ((scanAll matchLoad (str "reload(\"res://a.tres\")")).map (·.pos)) = [2] := by
  decide

/-- C9: an exported field without a type annotation gets the literal type
Variant: the export loop maps a missing type group to the string Variant, and
on the concrete declaration with initializer 5 nothing is inferred from the
initializer text. -/
theorem c9_untyped_export_variant (content path : Str) :
    (∀ m ∈ scanAll matchExport content, m.g.ty = none →
      exportType m.g.ty = str "Variant") ∧
    ((gdParse content path).exports = (scanAll matchExport content).map fun m =>
      ⟨m.g.ename, exportType m.g.ty, m.g.dflt, m.g.hint, m.line⟩) ∧
    (gdParse (str "@export var speed = 5") []).exports =
      [⟨str "speed", str "Variant", some (str "5"), none, 1⟩] := by
  refine ⟨fun m _ hty => ?_, rfl, by decide⟩
  rw [hty]; rfl

/-- Witness for C9 at the concrete untyped declaration. -/
theorem c9_untyped_export_variant_witness :
    exportType (none : Option Str) = str "Variant" := by
  have h := (c9_untyped_export_variant (str "@export var speed = 5") []).1
  have hm : (⟨0, 1, str "@export var speed = 5",
      ⟨none, none, str "speed", none, some (str "5"), 12⟩⟩ : MRec EG) ∈
      scanAll matchExport (str "@export var speed = 5") := by decide
  simpa using h _ hm rfl

/-- C6: the two load shapes feed one merged reference list (the parse's
preloads field is the memoized-load capture list followed by the plain-load
capture list), a plain-load match never sits directly after the three
characters pre, and consequently the memoized call preload("res://a.gd")
contributes its path exactly once while the two shapes together contribute
both paths. -/
theorem c6_load_shapes_merged :
    (∀ content path, (gdParse content path).preloads =
      ((scanAll matchPreload content).map (·.g.path)) ++
      ((scanAll matchLoad content).map (·.g.path))) ∧
    (∀ content, ∀ m ∈ scanAll matchLoad content, ∀ A : Str,
      content.take m.pos ≠ A ++ str "pre") ∧
    (gdParse (str "x = preload(\"res://a.gd\")") []).preloads = [str "res://a.gd"] ∧
    (gdParse (str "a = preload(\"res://a.gd\")\nb = load(\"res://b.gd\")") []).preloads =
      [str "res://a.gd", str "res://b.gd"] := by
  refine ⟨fun _ _ => rfl, fun content m hm A hpre => ?_, by decide, by decide⟩
  obtain ⟨rp2, s2, r, h1, hpos, _, hf⟩ := scanAll_mem hm
  have hrp : (content.take m.pos).reverse = rp2 := by
    rw [← h1, hpos, List.take_left' (by simp), List.reverse_reverse]
  rw [matchLoad] at hf
  have h3 : rp2.take 3 = ['e', 'r', 'p'] := by
    rw [← hrp, hpre]
    simp [str]
  simp [h3] at hf

/-- Witness for C6: the lookbehind fact applied at the match inside
reload("res://a.tres"). -/
theorem c6_load_shapes_merged_witness :
    (str "reload(\"res://a.tres\")").take 2 ≠ [] ++ str "pre" :=
  c6_load_shapes_merged.2.1 (str "reload(\"res://a.tres\")")
    ⟨2, 1, str "load(\"res://a.tres\")", ⟨str "res://a.tres"⟩⟩ (by decide) []

/-- C1 counterexample: a project whose only scene res://menu.tscn is the
target of an autoload entry and referenced nowhere.  The claim subtracts the
autoload target paths from the scene paths too, so it must not be orphaned;
find_orphaned_resources subtracts the autoload paths from the scripts only and
reports the scene as orphaned. -/
theorem c1_counterexample :
    (findOrphaned []
        [(str "menu.tscn", tscnParse (str "[gd_scene format=3]") (str "menu.tscn"))]
        [⟨str "Menu", str "res://menu.tscn"⟩]).orphaned_scenes =
      [str "res://menu.tscn"] ∧
    ([⟨str "Menu", str "res://menu.tscn"⟩] : List Autoload).map (·.path) =
      [str "res://menu.tscn"] := by
  decide

/-- C1 (amended): orphan detection.  Membership in the orphaned-scripts list
is exactly: a known script path that appears as a value nowhere in the
dependency graph and is no autoload target; membership in the orphaned-scenes
list is exactly: a known scene path that appears as a value nowhere in the
dependency graph — the autoload targets are subtracted from the scripts ONLY,
not from the scenes.  In particular an autoload target res://game.gd is never
reported as an orphaned script. -/
theorem c1_orphan_detection (scripts : List (Str × GDClass))
    (scenes : List (Str × TscnScene)) (autoloads : List Autoload) :
    (∀ q, q ∈ (findOrphaned scripts scenes autoloads).orphaned_scripts ↔
      (q ∈ scripts.map (fun pr => resKey pr.1) ∧
       ¬(∃ kv ∈ depGraph scripts scenes, some q ∈ kv.2) ∧
       q ∉ autoloads.map (·.path))) ∧
    (∀ q, q ∈ (findOrphaned scripts scenes autoloads).orphaned_scenes ↔
      (q ∈ scenes.map (fun pr => resKey pr.1) ∧
       ¬(∃ kv ∈ depGraph scripts scenes, some q ∈ kv.2))) ∧
    (∀ al ∈ autoloads, al.path = str "res://game.gd" →
      str "res://game.gd" ∉ (findOrphaned scripts scenes autoloads).orphaned_scripts) := by
  have href : ∀ q : Str, some q ∈ referencedOf (depGraph scripts scenes) ↔
      ∃ kv ∈ depGraph scripts scenes, some q ∈ kv.2 := by
    intro q
    simp only [referencedOf, List.mem_flatten, List.mem_map]
    constructor
    · rintro ⟨l, ⟨kv, hkv, rfl⟩, hq⟩
      exact ⟨kv, hkv, hq⟩
    · rintro ⟨kv, hkv, hq⟩
      exact ⟨kv.2, ⟨kv, hkv, rfl⟩, hq⟩
  refine ⟨fun q => ?_, fun q => ?_, fun al hal hpath hmem => ?_⟩
  · rw [← href q]
    simp only [findOrphaned, List.mem_filter, List.mem_map, Bool.and_eq_true,
      Bool.not_eq_true', Bool.eq_false_iff, Ne, List.contains, List.elem_iff, and_assoc]
  · rw [← href q]
    simp only [findOrphaned, List.mem_filter, List.mem_map, Bool.and_eq_true,
      Bool.not_eq_true', Bool.eq_false_iff, Ne, List.contains, List.elem_iff]
  · simp only [findOrphaned, List.mem_filter, Bool.and_eq_true, Bool.not_eq_true',
      Bool.eq_false_iff, Ne, List.contains, List.elem_iff] at hmem
    exact hmem.2.2 (by simpa [hpath] using List.mem_map_of_mem (f := Autoload.path) hal)

/-- Witness for C1: a one-script project whose only script is the autoload
target res://game.gd, referenced nowhere; it is absent from the orphaned
scripts. -/
theorem c1_orphan_detection_witness :
    str "res://game.gd" ∉
      (findOrphaned [(str "game.gd", gdParse (str "extends Node") (str "game.gd"))]
        [] [⟨str "Game", str "res://game.gd"⟩]).orphaned_scripts :=
  (c1_orphan_detection _ _ _).2.2 ⟨str "Game", str "res://game.gd"⟩
    (by decide) rfl

/-- C4: every cached scene's dependency entry contains (a) the path of each
external resource declared in that scene (appended whenever the path is
truthy), and (b) for every node carrying a truthy instanced-scene reference x,
the path field of every external resource whose id equals x. -/
theorem c4_scene_dependency_entries (scripts : List (Str × GDClass))
    (scenes : List (Str × TscnScene)) (p : Str) (scene : TscnScene)
    (hmem : (p, scene) ∈ scenes) :
    (∀ r ∈ scene.ext_resources, ∀ q : Str, r.path = some q → q ≠ [] →
      memGraph (depGraph scripts scenes) (resKey p) (some q)) ∧
    (∀ n ∈ scene.nodes, ∀ x : Str, n.«instance» = some x → x ≠ [] →
      ∀ r ∈ scene.ext_resources, r.id = x →
        memGraph (depGraph scripts scenes) (resKey p) r.path) := by
  constructor
  · intro r hr q hq hqne
    unfold depGraph
    refine memGraph_foldl_of_mem graphLE_sceneDepStep hmem (fun g => ?_) _
    unfold sceneDepStep
    refine graphLE_foldl (graphLE_sceneInstStep _ _) _ _ _ _ ?_
    refine memGraph_foldl_of_mem (graphLE_sceneExtStep _) hr (fun g2 => ?_) g
    unfold sceneExtStep
    rw [hq]
    show memGraph (if q ≠ [] then graphAppend g2 (resKey p) (some q) else g2) _ _
    rw [if_pos hqne]
    exact memGraph_append_self _ _ _
  · intro n hn x hx hxne r hr hid
    unfold depGraph
    refine memGraph_foldl_of_mem graphLE_sceneDepStep hmem (fun g => ?_) _
    unfold sceneDepStep
    refine memGraph_foldl_of_mem (graphLE_sceneInstStep _ _) hn (fun g2 => ?_) _
    unfold sceneInstStep
    rw [hx]
    show memGraph (if x ≠ [] then _ else g2) _ _
    rw [if_pos hxne]
    refine memGraph_foldl_of_mem (fun g3 r3 => ?_) hr (fun g3 => ?_) g2
    · split
      · exact graphLE_append
      · exact graphLE_rfl
    · rw [if_pos hid]
      exact memGraph_append_self _ _ _

/-- A one-scene cache for the C4 witness: an external resource with id 2 and
path res://foo.tscn, and a node instancing id 2. -/
def c4WitnessScene : TscnScene :=
  { path := str "main.tscn"
    format_version := 3
    ext_resources := [⟨str "2", str "PackedScene", some (str "res://foo.tscn"), []⟩]
    sub_resources := []
    nodes := [⟨str "Inst", none, some (str "."), some (str "2"), [], []⟩]
    connections := []
    rootIdx := none
    childEdges := []
    nodeMap := [] }

/-- Witness for C4: the node instancing id 2 contributes res://foo.tscn to the
scene's dependency entry. -/
theorem c4_scene_dependency_entries_witness :
    memGraph (depGraph [] [(str "main.tscn", c4WitnessScene)])
      (resKey (str "main.tscn")) (some (str "res://foo.tscn")) :=
  (c4_scene_dependency_entries [] [(str "main.tscn", c4WitnessScene)]
      (str "main.tscn") c4WitnessScene (by decide)).2
    ⟨str "Inst", none, some (str "."), some (str "2"), [], []⟩ (by decide)
    (str "2") rfl (by decide)
    ⟨str "2", str "PackedScene", some (str "res://foo.tscn"), []⟩ (by decide) rfl

/-- C7: bulk scans are fault-isolated per file.  The entry list of either scan
is exactly one record per walked file in order — an error record carrying the
file's path and message for a failed read, a summary record carrying the
symbol counts for a success — so no malformed file aborts the run; every
failed file's error record is present; and every successfully parsed file
whose relative path is unique among the walked files sits in the path-keyed
cache as its parse result. -/
theorem c7_scan_fault_isolation (files : List ScanFile)
    (cache : List (Str × GDClass)) (scache : List (Str × TscnScene)) :
    ((scanAllScripts files cache).2 = files.map fun f =>
      match f.content with
      | .ok c => scriptSummary f.rel (gdParse c f.full)
      | .error e => .err f.rel e) ∧
    ((scanAllScenes files scache).2 = files.map fun f =>
      match f.content with
      | .ok c => sceneSummary f.rel (tscnParse c f.full)
      | .error e => .err f.rel e) ∧
    (∀ f ∈ files, ∀ e, f.content = .error e →
      ScriptEntry.err f.rel e ∈ (scanAllScripts files cache).2 ∧
      SceneEntry.err f.rel e ∈ (scanAllScenes files scache).2) ∧
    ((files.map (·.rel)).Nodup → ∀ f ∈ files, ∀ c, f.content = .ok c →
      alookup (scanAllScripts files cache).1 f.rel = some (gdParse c f.full) ∧
      alookup (scanAllScenes files scache).1 f.rel = some (tscnParse c f.full)) := by
  have h1 := scanStep_entries gdParse scriptSummary ScriptEntry.err files (cache, [])
  have h2 := scanStep_entries tscnParse sceneSummary SceneEntry.err files (scache, [])
  refine ⟨by simpa [scanAllScripts] using h1, by simpa [scanAllScenes] using h2,
    fun f hf e he => ⟨?_, ?_⟩, fun hnd f hf c hc => ⟨?_, ?_⟩⟩
  · rw [show (scanAllScripts files cache).2 = _ from by simpa [scanAllScripts] using h1]
    refine List.mem_map.2 ⟨f, hf, ?_⟩
    rw [he]
  · rw [show (scanAllScenes files scache).2 = _ from by simpa [scanAllScenes] using h2]
    refine List.mem_map.2 ⟨f, hf, ?_⟩
    rw [he]
  · exact scanStep_cache_hit _ _ _ files (cache, []) f c hf hc hnd
  · exact scanStep_cache_hit _ _ _ files (scache, []) f c hf hc hnd

/-- The files of the C7 witness: a parse success, a read failure, then
another success. -/
def c7Files : List ScanFile :=
  [⟨str "a.gd", str "P/a.gd", .ok (str "signal s")⟩,
   ⟨str "b.gd", str "P/b.gd", .error (str "boom")⟩,
   ⟨str "c.gd", str "P/c.gd", .ok (str "var x = 1")⟩]

/-- Witness for C7: the failure in the middle leaves the later file parsed and
cached. -/
theorem c7_scan_fault_isolation_witness :
    alookup (scanAllScripts c7Files []).1 (str "c.gd") =
      some (gdParse (str "var x = 1") (str "P/c.gd")) :=
  ((c7_scan_fault_isolation c7Files [] []).2.2.2 (by decide)
    ⟨str "c.gd", str "P/c.gd", .ok (str "var x = 1")⟩ (by decide)
    (str "var x = 1") rfl).1

/-- C2 counterexample: in a scene text with two parentless node stanzas A then
B, the root becomes the second stanza B (index 1), not the first (index 0):
each parentless stanza overwrites root_node and the "." entry. -/
theorem c2_counterexample :
    (((tscnParse (str "[node name=\"A\" type=\"Node\"]\n[node name=\"B\" type=\"Node\"]")
        []).nodes.map fun n => (n.name, n.parent)) =
      [(str "A", none), (str "B", none)]) ∧
    (tscnParse (str "[node name=\"A\" type=\"Node\"]\n[node name=\"B\" type=\"Node\"]")
        []).rootIdx = some 1 ∧
    lookupIdx (tscnParse (str "[node name=\"A\" type=\"Node\"]\n[node name=\"B\" type=\"Node\"]")
        []).nodeMap (str ".") = some 1 := by
  decide

/-- C2 (amended): the last node stanza without a parent attribute becomes the
scene's root node — each parentless stanza overwrites root_node and the "."
entry of the path lookup, so when exactly one stanza lacks a parent (the
format's invariant case) first and last coincide; and the "." entry of the
lookup equals the root as long as no node stanza computes the literal path "."
(parent "." with name "."). -/
theorem c2_root_is_last_parentless (content path : Str)
    (hdot : ∀ n ∈ (tscnParse content path).nodes,
      ¬(n.parent = some (str ".") ∧ n.name = str ".")) :
    (tscnParse content path).rootIdx =
      lastNoParentIdx (tscnParse content path).nodes ∧
    lookupIdx (tscnParse content path).nodeMap (str ".") =
      (tscnParse content path).rootIdx :=
  ⟨(tscnParse_rootInv content path).1, (tscnParse_rootInv content path).2 hdot⟩

/-- Witness for C2 at a two-node scene with a unique parentless stanza. -/
theorem c2_root_is_last_parentless_witness :
    (tscnParse (str "[node name=\"A\" type=\"Node\"]\n[node name=\"B\" type=\"Node\" parent=\".\"]")
        []).rootIdx =
      lastNoParentIdx (tscnParse
        (str "[node name=\"A\" type=\"Node\"]\n[node name=\"B\" type=\"Node\" parent=\".\"]")
        []).nodes ∧
    lookupIdx (tscnParse
        (str "[node name=\"A\" type=\"Node\"]\n[node name=\"B\" type=\"Node\" parent=\".\"]")
        []).nodeMap (str ".") =
      (tscnParse (str "[node name=\"A\" type=\"Node\"]\n[node name=\"B\" type=\"Node\" parent=\".\"]")
        []).rootIdx :=
  c2_root_is_last_parentless _ [] (by decide)

/-- C3 counterexample: with the export annotation on its own line,
"@export\nvar health: int = 100", the one declaration (its name token at
offset 12) is extracted both as an exported field and as a plain field. -/
theorem c3_counterexample :
    (((gdParse (str "@export\nvar health: int = 100") []).exports.map fun e =>
        (e.name, e.type, e.default)) =
      [(str "health", str "int", some (str "100"))]) ∧
    (((gdParse (str "@export\nvar health: int = 100") []).«variables».map fun v =>
        (v.name, v.type, v.default)) =
      [(str "health", some (str "int"), some (str "100"))]) ∧
    ((scanAll matchExport (str "@export\nvar health: int = 100")).map fun m =>
      m.pos + m.g.nameOff) = [12] ∧
    ((scanAll matchVar (str "@export\nvar health: int = 100")).map fun m =>
      m.pos + m.g.nameOff) = [12] := by
  decide

/-- C3 (amended): when every export match lies within a single line (the
annotation on the same line as its var keyword, as in the claim's example),
no declaration is extracted both as an exported field and as a plain field:
the name-token offsets of export matches and plain var matches are pairwise
distinct.  The concrete same-line declaration lands in the exported list with
type int and default 100 and not in the plain list.  (An annotation on its own
line, excluded here, puts the one declaration in both lists.) -/
theorem c3_export_plain_disjoint (content : Str)
    (hsl : ∀ m ∈ scanAll matchExport content, '\n' ∉ m.matched) :
    (∀ me ∈ scanAll matchExport content, ∀ mv ∈ scanAll matchVar content,
      me.pos + me.g.nameOff ≠ mv.pos + mv.g.nameOff) ∧
    (gdParse (str "@export var health: int = 100") []).exports =
      [⟨str "health", str "int", some (str "100"), none, 1⟩] ∧
    (gdParse (str "@export var health: int = 100") []).«variables» = [] := by
  refine ⟨?_, by decide, by decide⟩
  intro me hme mv hmv heq
  obtain ⟨rp1, s1, r1, hc1, hpos1, _, hf1⟩ := scanAll_mem hme
  obtain ⟨rp2, s2, r2, hc2, hpos2, _, hf2⟩ := scanAll_mem hmv
  obtain ⟨_, hsplit1, hhead1, hoff1lo, hoff1hi⟩ := matchExport_anatomy hf1
  obtain ⟨hls2, hcore⟩ := matchVar_anatomy hf2
  obtain ⟨hsplit2, w1, nm, rest2, hmtc, hws, hw1ne, hnmne, _, hoff2⟩ :=
    matchVarCore_anatomy hcore
  have hgetE : ∀ j, j < me.matched.length →
      content.get? (me.pos + j) = me.matched.get? j := by
    intro j hj
    rw [← hc1, hsplit1, hpos1, ← List.length_reverse rp1]
    exact get?_concat_at hj
  have hgetV : ∀ j, j < mv.matched.length →
      content.get? (mv.pos + j) = mv.matched.get? j := by
    intro j hj
    rw [← hc2, hsplit2, hpos2, ← List.length_reverse rp2]
    exact get?_concat_at hj
  have h3v : (str "var").length = 3 := rfl
  have hlen2 : mv.matched.length = 3 + (w1.length + (nm.length + rest2.length)) := by
    rw [hmtc]
    simp [str]
    omega
  have hnm1 : 1 ≤ nm.length := List.length_pos.2 hnmne
  have hE0 : content.get? me.pos = some '@' := by
    have h0 : (0 : Nat) < me.matched.length := by omega
    have := hgetE 0 h0
    rw [Nat.add_zero] at this
    rw [this]
    cases hm : me.matched with
    | nil => rw [hm] at hhead1; cases hhead1
    | cons c t =>
      rw [hm] at hhead1
      simpa using hhead1
  have hgm : mv.matched = 'v' :: 'a' :: 'r' :: (w1 ++ (nm ++ rest2)) := by
    rw [hmtc]
    rfl
  have hV0 : content.get? mv.pos = some 'v' := by
    have := hgetV 0 (by omega)
    rw [Nat.add_zero] at this
    rw [this, hgm]
    rfl
  have hV1 : content.get? (mv.pos + 1) = some 'a' := by
    rw [hgetV 1 (by omega), hgm]
    rfl
  have hV2 : content.get? (mv.pos + 2) = some 'r' := by
    rw [hgetV 2 (by omega), hgm]
    rfl
  have hVws : ∀ i, i < w1.length →
      ∃ c, content.get? (mv.pos + (3 + i)) = some c ∧ isPySpace c = true := by
    intro i hi
    have hj : 3 + i < mv.matched.length := by omega
    have h1 := hgetV (3 + i) hj
    have h2 : mv.matched.get? (3 + i) = w1.get? i := by
      rw [hgm, show 3 + i = i + 1 + 1 + 1 from by omega]
      rw [List.get?_cons_succ, List.get?_cons_succ, List.get?_cons_succ]
      exact List.get?_append hi
    obtain ⟨c, hc⟩ : ∃ c, w1.get? i = some c := ⟨w1.get ⟨i, hi⟩, List.get?_eq_get hi⟩
    exact ⟨c, by rw [h1, h2, hc], hws c (List.get?_mem hc)⟩
  rcases Nat.lt_trichotomy me.pos mv.pos with hlt | heqv | hgt
  · -- export match starts first: the newline before the var line sits inside
    -- the single-line export match
    have hv1 : 1 ≤ mv.pos := by omega
    rcases atLS_content (s := s2) hls2 with h0 | hnl
    · omega
    · rw [hc2, ← hpos2] at hnl
      have hj : mv.pos - 1 - me.pos < me.matched.length := by omega
      have := hgetE (mv.pos - 1 - me.pos) hj
      rw [show me.pos + (mv.pos - 1 - me.pos) = mv.pos - 1 from by omega] at this
      rw [hnl] at this
      exact hsl me hme (List.get?_mem this.symm)
  · -- same offset: at sign versus v
    rw [heqv, hV0] at hE0
    exact absurd (Option.some.inj hE0) (by decide)
  · -- var match starts first: the at sign would sit inside var or its
    -- whitespace run
    by_cases h3 : me.pos < mv.pos + 3
    · have : me.pos = mv.pos + 1 ∨ me.pos = mv.pos + 2 := by omega
      rcases this with h | h
      · rw [h, hV1] at hE0
        exact absurd (Option.some.inj hE0) (by decide)
      · rw [h, hV2] at hE0
        exact absurd (Option.some.inj hE0) (by decide)
    · have hi : me.pos - mv.pos - 3 < w1.length := by omega
      obtain ⟨c, hcg, hcws⟩ := hVws (me.pos - mv.pos - 3) hi
      rw [show mv.pos + (3 + (me.pos - mv.pos - 3)) = me.pos from by omega] at hcg
      rw [hE0] at hcg
      cases hcg
      exact absurd hcws (by decide)

/-- Witness for C3 on the single-line script: no export match contains a
newline, so the theorem applies; its disjointness instance at the (only)
export match and the empty var scan is vacuous, and the concrete conclusions
evaluate. -/
theorem c3_export_plain_disjoint_witness :
    (gdParse (str "@export var health: int = 100") []).exports =
      [⟨str "health", str "int", some (str "100"), none, 1⟩] :=
  (c3_export_plain_disjoint (str "@export var health: int = 100")
    (by decide)).2.1

/-- C5 counterexample: parameter pieces that strip to nothing are dropped, so
signal died(a,,b) parses with parameters a, b (a plain split with each piece
trimmed would keep an empty middle piece); and a preceding bare signal keyword
swallows the line signal died(amount) entirely — the parse of
"signal\nsignal died(amount)" has no signal named died. -/
theorem c5_counterexample :
    (gdParse (str "signal died(a,,b)") []).signals =
      [⟨str "died", [str "a", str "b"], 1⟩] ∧
    ((splitComma (str "a,,b")).map stripWs = [str "a", [], str "b"]) ∧
    (gdParse (str "signal\nsignal died(amount)") []).signals =
      [⟨str "signal", [], 1⟩] := by
  decide

/-- A string that strips to nothing is whitespace throughout. -/
theorem stripWs_eq_nil_all {ps : Str} (h : stripWs ps = []) :
    ∀ c ∈ ps, isPySpace c = true := by
  unfold stripWs at h
  rw [List.reverse_eq_nil_iff, List.dropWhile_eq_nil_iff] at h
  intro c hc
  have hsplit : ps = ps.takeWhile isPySpace ++ ps.dropWhile isPySpace :=
    (List.takeWhile_append_dropWhile (p := isPySpace) (l := ps)).symm
  rw [hsplit] at hc
  rcases List.mem_append.1 hc with h1 | h1
  · exact List.mem_takeWhile_imp h1
  · exact h c (List.mem_reverse.2 h1)

/-- str.split leaves a comma-free string whole. -/
theorem splitComma_no_comma {ps : Str} (h : ∀ c ∈ ps, c ≠ ',') :
    splitComma ps = [ps] := by
  induction ps with
  | nil => rfl
  | cons c t ih =>
    unfold splitComma
    rw [if_neg (h c (List.mem_cons_self c t)), ih fun x hx => h x (List.mem_cons_of_mem c hx)]

/-- _parse_params in closed form: split on commas, strip each piece, drop the
pieces that strip to nothing — the whitespace-only guard of the source is
subsumed, since such a string has no comma, splits into itself alone, and that
single piece strips to nothing. -/
theorem parseParams_eq (ps : Str) :
    parseParams ps = ((splitComma ps).map stripWs).filter (· ≠ []) := by
  unfold parseParams
  split
  · next h =>
    have hnc : ∀ c ∈ ps, c ≠ ',' := by
      intro c hc heq
      have hws := stripWs_eq_nil_all h c hc
      rw [heq] at hws
      exact absurd hws (by decide)
    rw [splitComma_no_comma hnc, List.map_singleton, h]
    rfl
  · rfl

/-- Reversal does not change the newline count. -/
theorem nlCount_reverse (l : Str) : nlCount l.reverse = nlCount l := by
  simp [nlCount, List.filter_reverse]

/-- Completeness of the finditer scan: when the matcher succeeds right after a
prefix, the pending skip cannot reach past the prefix, and every match
attempted inside the prefix ends within it, the scan reports the match at the
prefix boundary. -/
theorem scanAux_complete {G : Type} (f : Str → Str → Option (G × Str × Str))
    (tgt rest : Str) (g : G) (htgt : tgt ≠ []) :
    ∀ (pre rp : Str) (k : Nat), k ≤ pre.length →
      f (pre.reverse ++ rp) (tgt ++ rest) = some (g, tgt, rest) →
      (∀ j, j < pre.length → ∀ g2 mt2 r2,
        f ((pre.take j).reverse ++ rp) (pre.drop j ++ (tgt ++ rest)) =
          some (g2, mt2, r2) → j + mt2.length ≤ pre.length) →
      (⟨(pre.reverse ++ rp).length, nlCount (pre.reverse ++ rp) + 1, tgt, g⟩ : MRec G) ∈
        scanAux f rp (pre ++ (tgt ++ rest)) k := by
  intro pre
  induction pre with
  | nil =>
    intro rp k hk hmatch _
    have hk0 : k = 0 := Nat.le_zero.1 hk
    subst hk0
    simp only [List.reverse_nil, List.nil_append] at hmatch ⊢
    rcases List.exists_cons_of_ne_nil htgt with ⟨c0, t0, htc⟩
    subst htc
    simp only [List.cons_append] at hmatch ⊢
    simp only [scanAux, hmatch]
    exact List.mem_cons_self _ _
  | cons c t ih =>
    intro rp k hk hmatch hnosw
    have hR : (c :: t).reverse ++ rp = t.reverse ++ (c :: rp) := by
      simp
    rw [hR] at hmatch ⊢
    rw [List.cons_append]
    have hns2 : ∀ j, j < t.length → ∀ g2 mt2 r2,
        f ((t.take j).reverse ++ (c :: rp)) (t.drop j ++ (tgt ++ rest)) =
          some (g2, mt2, r2) → j + mt2.length ≤ t.length := by
      intro j hj g2 mt2 r2 hfj
      have harg : f (((c :: t).take (j + 1)).reverse ++ rp)
          ((c :: t).drop (j + 1) ++ (tgt ++ rest)) = some (g2, mt2, r2) := by
        rw [List.take_succ_cons, List.drop_succ_cons, List.reverse_cons,
            List.append_assoc, List.singleton_append]
        exact hfj
      have hle := hnosw (j + 1) (by simp only [List.length_cons]; omega) g2 mt2 r2 harg
      simp only [List.length_cons] at hle
      omega
    match k with
    | k2 + 1 =>
      simp only [scanAux]
      exact ih (c :: rp) k2 (by simp only [List.length_cons] at hk; omega) hmatch hns2
    | 0 =>
      cases hf0 : f rp (c :: (t ++ (tgt ++ rest))) with
      | none =>
        simp only [scanAux, hf0]
        exact ih (c :: rp) 0 (Nat.zero_le _) hmatch hns2
      | some v =>
        obtain ⟨g2, mt2, r2⟩ := v
        simp only [scanAux, hf0]
        refine List.mem_cons_of_mem _
          (ih (c :: rp) (mt2.length - 1) ?_ hmatch hns2)
        have harg : f (((c :: t).take 0).reverse ++ rp)
            ((c :: t).drop 0 ++ (tgt ++ rest)) = some (g2, mt2, r2) := by
          simpa using hf0
        have hle := hnosw 0 (by simp) g2 mt2 r2 harg
        simp only [List.length_cons] at hle
        omega

/-- The signal matcher at a line start directly before the text
signal died(amount) matches exactly that text, capturing name died and
parameter group amount, whatever follows. -/
theorem matchSignal_at_target (PRE post : Str)
    (hpre : PRE = [] ∨ PRE.getLast? = some '\n') :
    matchSignal PRE.reverse (str "signal died(amount)" ++ post) =
      some (⟨str "died", some (str "amount")⟩, str "signal died(amount)", post) := by
  have hls : atLS PRE.reverse = true := by
    unfold atLS
    rcases hpre with h | h
    · subst h; rfl
    · rw [List.head?_reverse, h]; simp
  unfold matchSignal
  rw [if_pos hls]
  rfl

/-- C5 (amended): in every script text where the line signal died(amount)
starts at a line start and no signal match beginning earlier runs past that
point (a preceding bare signal keyword, excluded here, swallows the line
through its newline-crossing whitespace run), the parsed signal list contains
the signal named died with parameter list exactly amount and the 1-based line
number of the match start; and every parameter string is split on commas with
each piece trimmed AND pieces that trim to nothing dropped (an empty or
whitespace-only string thereby yielding the empty list). -/
theorem c5_signal_line (PRE post path : Str)
    (hpre : PRE = [] ∨ PRE.getLast? = some '\n')
    (hnosw : noSwallow PRE (str "signal died(amount)" ++ post) = true) :
    (⟨str "died", [str "amount"], nlCount PRE + 1⟩ : GDSignal) ∈
      (gdParse (PRE ++ (str "signal died(amount)" ++ post)) path).signals ∧
    ∀ ps, parseParams ps = ((splitComma ps).map stripWs).filter (· ≠ []) := by
  refine ⟨?_, parseParams_eq⟩
  have hns : ∀ j, j < PRE.length → ∀ g2 mt2 r2,
      matchSignal ((PRE.take j).reverse ++ [])
          (PRE.drop j ++ (str "signal died(amount)" ++ post)) =
        some (g2, mt2, r2) → j + mt2.length ≤ PRE.length := by
    intro j hj g2 mt2 r2 hfj
    rw [List.append_nil] at hfj
    unfold noSwallow at hnosw
    have hall : (match matchSignal (PRE.take j).reverse
          (PRE.drop j ++ (str "signal died(amount)" ++ post)) with
        | some (_, mt, _) => decide (j + mt.length ≤ PRE.length)
        | none => true) = true :=
      (List.all_eq_true.1 hnosw) j (List.mem_range.2 hj)
    rw [hfj] at hall
    exact of_decide_eq_true hall
  have hscan := scanAux_complete matchSignal (str "signal died(amount)") post
      ⟨str "died", some (str "amount")⟩ (by decide) PRE [] 0 (Nat.zero_le _)
      (by rw [List.append_nil]; exact matchSignal_at_target PRE post hpre) hns
  simp only [List.append_nil, List.length_reverse, nlCount_reverse] at hscan
  have hsig : (gdParse (PRE ++ (str "signal died(amount)" ++ post)) path).signals =
      (scanAll matchSignal (PRE ++ (str "signal died(amount)" ++ post))).map
        (fun m => ⟨m.g.name, sigParams m.g.params, m.line⟩) := rfl
  rw [hsig]
  exact List.mem_map.2 ⟨⟨PRE.length, nlCount PRE + 1, str "signal died(amount)",
    ⟨str "died", some (str "amount")⟩⟩, hscan, rfl⟩

/-- Witness for C5: before the target line a plain var line, after it another;
the prefix ends in a newline and swallows nothing, so the signal died with
parameter amount is reported on line 2, and the parameter-splitting law holds. -/
theorem c5_signal_line_witness :
    (⟨str "died", [str "amount"], 2⟩ : GDSignal) ∈
      (gdParse (str "var x = 1\n" ++ (str "signal died(amount)" ++ str "\nvar y = 2"))
        []).signals ∧
    parseParams (str " a , b ") = [str "a", str "b"] := by
  have h := c5_signal_line (str "var x = 1\n") (str "\nvar y = 2") []
    (Or.inr (by decide)) (by decide)
  exact ⟨h.1, by decide⟩

example :
    (gdParse (str "signal died(amount)") []).signals =
      [⟨str "died", [str "amount"], 1⟩] := by decide

example :
    (gdParse (str "@export var health: int = 100") []).exports =
      [⟨str "health", str "int", some (str "100"), none, 1⟩] := by decide

example : (gdParse (str "@export var health: int = 100") []).«variables» = [] := by
  decide

example :
    (gdParse (str "reload(\"res://a.tres\")") []).preloads =
      [str "res://a.tres"] := by decide

example :
    (gdParse (str "preload(\"res://a.gd\")") []).preloads =
      [str "res://a.gd"] := by decide

end GdotSpec
